import Mathlib

/-!
Formal model of the `compression_library` Rust crate: three lossless codecs
(RLE, LZ77, Huffman) over byte buffers, embedded shallowly as Lean functions
on `List Nat` (each entry one byte), with `Except CompressionError` for the
fallible operations. The definitions mirror `src/rle.rs`, `src/lz77.rs` and
`src/huffman.rs`; loops become recursions on an explicit decreasing measure.
-/

/-- Mirror of `CompressionError` from `src/error.rs`. -/
inductive CompressionError where
  | InvalidInput (msg : String)
  | DecompressionError (msg : String)
  | BufferTooSmall
  | InvalidHeader
  | CorruptedData
deriving DecidableEq

/-- Little-endian 4-byte encoding of a value already reduced below `2^32`
    (mirror of `u32::to_le_bytes`). -/
def u32le (n : Nat) : List Nat :=
  [n % 256, n / 256 % 256, n / 2 ^ 16 % 256, n / 2 ^ 24 % 256]

/-- Mirror of `u32::from_le_bytes` on four byte values. -/
def readU32le (a b c d : Nat) : Nat :=
  a + b * 256 + c * 2 ^ 16 + d * 2 ^ 24

/-- Mirror of `u32::try_from(n).unwrap_or(u32::MAX)`. -/
def clampU32 (n : Nat) : Nat := min n (2 ^ 32 - 1)

theorem readU32le_u32le (n : Nat) (h : n < 2 ^ 32) :
    readU32le (n % 256) (n / 256 % 256) (n / 2 ^ 16 % 256) (n / 2 ^ 24 % 256) = n := by
  unfold readU32le
  omega

/-! ## RLE codec (`src/rle.rs`) -/

/-- Inner `while` loop of `Rle::compress`: starting from a run of `run`
    consecutive `cur` bytes already counted, extend the run over `rest`
    while the next byte equals `cur` and the run is still below 255. -/
def rleRun (cur : Nat) (rest : List Nat) (run : Nat) : Nat :=
  match rest with
  | [] => run
  | x :: xs => if x = cur ∧ run < 255 then rleRun cur xs (run + 1) else run

/-- Outer loop of `Rle::compress`: at each position take the current byte,
    count its (capped) run, emit the `(count, byte)` pair and advance past
    the run. -/
def rleCompressAux (input : List Nat) : List Nat :=
  match input with
  | [] => []
  | b :: rest =>
      let r := rleRun b rest 1
      r :: b :: rleCompressAux (rest.drop (r - 1))
termination_by input.length
decreasing_by
  have h := List.length_drop (rleRun x xs 1 - 1) xs
  simp only [List.length_cons, h]
  omega

/-- Mirror of `Rle::compress` (`src/rle.rs`, `impl Compressor for Rle`). -/
def rleCompress (input : List Nat) : Except CompressionError (List Nat) :=
  if input = [] then .ok [] else .ok (rleCompressAux input)

/-- Loop of `Rle::decompress` over the 2-byte chunks (`chunks_exact(2)`):
    reject a zero count, otherwise replicate the byte `count` times.
    The input list always has even length when this is called. -/
def rleDecompressAux (input : List Nat) : Except CompressionError (List Nat) :=
  match input with
  | [] => .ok []
  | count :: byte :: rest =>
      if count = 0 then .error .CorruptedData
      else
        match rleDecompressAux rest with
        | .error e => .error e
        | .ok tail => .ok (List.replicate count byte ++ tail)
  | [_] => .error .CorruptedData

/-- Mirror of `Rle::decompress` (`src/rle.rs`, `impl Decompressor for Rle`). -/
def rleDecompress (input : List Nat) : Except CompressionError (List Nat) :=
  if input = [] then .ok []
  else if ¬ input.length % 2 = 0 then .error .CorruptedData
  else rleDecompressAux input

/-- Pure replication semantics of an RLE pair stream, used to state what a
    successful decode returns: each `(count, byte)` pair contributes
    `count` copies of `byte`, in order. -/
def rleExpand (input : List Nat) : List Nat :=
  match input with
  | count :: byte :: rest => List.replicate count byte ++ rleExpand rest
  | _ => []

theorem rleRun_ge (cur : Nat) (rest : List Nat) (run : Nat) :
    run ≤ rleRun cur rest run := by
  induction rest generalizing run with
  | nil => simp [rleRun]
  | cons x xs ih =>
      simp only [rleRun]
      split
      · exact le_trans (Nat.le_succ run) (ih (run + 1))
      · exact le_refl run

theorem rleRun_le (cur : Nat) (rest : List Nat) (run : Nat) (h : run ≤ 255) :
    rleRun cur rest run ≤ 255 := by
  induction rest generalizing run with
  | nil => simpa [rleRun]
  | cons x xs ih =>
      simp only [rleRun]
      split
      · rename_i hc
        exact ih (run + 1) (by omega)
      · exact h

/-- The bytes skipped by a counted run are all equal to the current byte. -/
theorem rleRun_take (cur : Nat) (rest : List Nat) (run : Nat) :
    rest.take (rleRun cur rest run - run) = List.replicate (rleRun cur rest run - run) cur := by
  induction rest generalizing run with
  | nil => simp [rleRun]
  | cons x xs ih =>
      simp only [rleRun]
      split
      · rename_i hc
        have h1 : run + 1 ≤ rleRun cur xs (run + 1) := rleRun_ge cur xs (run + 1)
        have h2 := ih (run + 1)
        have hx : rleRun cur xs (run + 1) - run = (rleRun cur xs (run + 1) - (run + 1)) + 1 := by
          omega
        rw [hx]
        simp only [List.take_succ_cons, List.replicate_succ, hc.1]
        rw [h2]
      · simp

/-- One emitted pair followed by the rest of the run: replaying the pair
    recovers the original run prefix. -/
theorem replicate_append_drop (b : Nat) (rest : List Nat) (r : Nat)
    (h1 : 1 ≤ r) (ht : rest.take (r - 1) = List.replicate (r - 1) b) :
    List.replicate r b ++ rest.drop (r - 1) = b :: rest := by
  have hr : r = (r - 1) + 1 := by omega
  rw [hr, List.replicate_succ]
  simp only [List.cons_append, Nat.add_sub_cancel]
  rw [← ht, List.take_append_drop]

theorem rleDecompressAux_compressAux (input : List Nat) :
    rleDecompressAux (rleCompressAux input) = .ok input := by
  induction input using rleCompressAux.induct with
  | case1 => simp [rleCompressAux, rleDecompressAux]
  | case2 b rest r ih =>
      have h1 : 1 ≤ rleRun b rest 1 := rleRun_ge b rest 1
      have ht := rleRun_take b rest 1
      simp only [rleCompressAux, rleDecompressAux]
      rw [if_neg (show ¬ rleRun b rest 1 = 0 by omega)]
      rw [ih]
      exact congrArg Except.ok (replicate_append_drop b rest (rleRun b rest 1) h1 ht)

theorem rleCompressAux_length_even (input : List Nat) :
    (rleCompressAux input).length % 2 = 0 := by
  induction input using rleCompressAux.induct with
  | case1 => simp [rleCompressAux]
  | case2 b rest r ih =>
      simp only [rleCompressAux, List.length_cons]
      have ih2 : (rleCompressAux (List.drop (rleRun b rest 1 - 1) rest)).length % 2 = 0 := ih
      omega

theorem rleCompressAux_ne_nil (b : Nat) (rest : List Nat) :
    rleCompressAux (b :: rest) ≠ [] := by
  simp only [rleCompressAux]
  intro h
  exact List.cons_ne_nil _ _ h

/-- Full RLE round trip on the compressed buffer, including the framing
    checks of `Rle::decompress`. -/
theorem rleDecompress_compress (input : List Nat) :
    ∃ c, rleCompress input = .ok c ∧ rleDecompress c = .ok input := by
  by_cases hne : input = []
  · exact ⟨[], by simp [hne, rleCompress, rleDecompress]⟩
  · refine ⟨rleCompressAux input, by simp [rleCompress, hne], ?_⟩
    obtain ⟨b, rest, rfl⟩ := List.exists_cons_of_ne_nil hne
    unfold rleDecompress
    rw [if_neg (rleCompressAux_ne_nil b rest),
      if_neg (by simp [rleCompressAux_length_even (b :: rest)])]
    exact rleDecompressAux_compressAux (b :: rest)

/-- Induction principle consuming a list two elements at a time, matching the
    2-byte chunk structure of the RLE pair stream. -/
theorem pairList_ind (P : List Nat → Prop) (h1 : P []) (h2 : ∀ x, P [x])
    (h3 : ∀ a b l, P l → P (a :: b :: l)) : ∀ l, P l
  | [] => h1
  | [x] => h2 x
  | a :: b :: l => h3 a b l (pairList_ind P h1 h2 h3 l)

theorem rleDecompressAux_ok (input : List Nat) (he : input.length % 2 = 0)
    (h : ∀ k, 2 * k + 1 < input.length → input.getD (2 * k) 0 ≠ 0) :
    rleDecompressAux input = .ok (rleExpand input) := by
  induction input using pairList_ind with
  | h1 => simp [rleDecompressAux, rleExpand]
  | h2 x => simp at he
  | h3 count byte rest ih =>
      have h0 : count ≠ 0 := by
        have := h 0 (by simp)
        simpa using this
      have hs : ∀ k, 2 * k + 1 < rest.length → rest.getD (2 * k) 0 ≠ 0 := by
        intro k hk
        have := h (k + 1) (by simp; omega)
        simpa [Nat.mul_add] using this
      have he2 : rest.length % 2 = 0 := by simp at he; omega
      simp only [rleDecompressAux, if_neg h0, ih he2 hs, rleExpand]

theorem rleDecompressAux_err (input : List Nat) (he : input.length % 2 = 0)
    (k : Nat) (hk : 2 * k + 1 < input.length) (h0 : input.getD (2 * k) 0 = 0) :
    rleDecompressAux input = .error .CorruptedData := by
  induction input using pairList_ind generalizing k with
  | h1 => simp at hk
  | h2 x => simp at he
  | h3 count byte rest ih =>
      by_cases hc : count = 0
      · simp [rleDecompressAux, hc]
      · have hk0 : k ≠ 0 := by
          intro hz
          subst hz
          simp at h0
          exact hc h0
        obtain ⟨m, rfl⟩ := Nat.exists_eq_succ_of_ne_zero hk0
        have hrest : rleDecompressAux rest = .error .CorruptedData := by
          refine ih (by simp at he; omega) m ?_ ?_
          · simp at hk
            omega
          · simpa [Nat.mul_add] using h0
        simp [rleDecompressAux, hc, hrest]

/-- Claim C5: for every non-empty buffer, RLE decompression fails with the
    CorruptedData error exactly when the input length is odd or some 2-byte
    pair has a zero count byte; on every even-length input with all counts
    nonzero it succeeds and replicates each pair in order. -/
theorem rle_decompress_error_iff (input : List Nat) (hne : input ≠ []) :
    (rleDecompress input = .error .CorruptedData ↔
      ¬ input.length % 2 = 0 ∨
        ∃ k, 2 * k + 1 < input.length ∧ input.getD (2 * k) 0 = 0) ∧
    ((input.length % 2 = 0 ∧
        ∀ k, 2 * k + 1 < input.length → input.getD (2 * k) 0 ≠ 0) →
      rleDecompress input = .ok (rleExpand input)) := by
  have hok : (input.length % 2 = 0 ∧
      ∀ k, 2 * k + 1 < input.length → input.getD (2 * k) 0 ≠ 0) →
      rleDecompress input = .ok (rleExpand input) := by
    rintro ⟨he, hall⟩
    unfold rleDecompress
    rw [if_neg hne, if_neg (by simpa using he)]
    exact rleDecompressAux_ok input he hall
  refine ⟨⟨?_, ?_⟩, hok⟩
  · intro herr
    by_cases he : input.length % 2 = 0
    · by_cases hz : ∃ k, 2 * k + 1 < input.length ∧ input.getD (2 * k) 0 = 0
      · exact Or.inr hz
      · exfalso
        push_neg at hz
        rw [hok ⟨he, fun k hk => hz k hk⟩] at herr
        exact Except.noConfusion herr
    · exact Or.inl he
  · intro hor
    by_cases he : input.length % 2 = 0
    · rcases hor with h | ⟨k, hk, h0⟩
      · exact absurd he h
      · unfold rleDecompress
        rw [if_neg hne, if_neg (by simpa using he)]
        exact rleDecompressAux_err input he k hk h0
    · unfold rleDecompress
      rw [if_neg hne, if_pos (by simpa using he)]

/-- Witness for `rle_decompress_error_iff` at the spec's two concrete probes:
    `[1,2,3]` (odd length) and `[0, 0xAA]` (zero count) both decode to the
    CorruptedData error. -/
theorem rle_decompress_error_iff_witness :
    rleDecompress [1, 2, 3] = .error .CorruptedData ∧
    rleDecompress [0, 170] = .error .CorruptedData := by
  constructor
  · exact (rle_decompress_error_iff [1, 2, 3] (by decide)).1.mpr (Or.inl (by decide))
  · exact (rle_decompress_error_iff [0, 170] (by decide)).1.mpr
      (Or.inr ⟨0, by decide, by decide⟩)

theorem rleCompressAux_counts (input : List Nat) :
    ∀ k, 2 * k < (rleCompressAux input).length →
      1 ≤ (rleCompressAux input).getD (2 * k) 0 ∧
        (rleCompressAux input).getD (2 * k) 0 ≤ 255 := by
  induction input using rleCompressAux.induct with
  | case1 => simp [rleCompressAux]
  | case2 b rest r ih =>
      have ih2 : ∀ k, 2 * k < (rleCompressAux (List.drop (rleRun b rest 1 - 1) rest)).length →
          1 ≤ (rleCompressAux (List.drop (rleRun b rest 1 - 1) rest)).getD (2 * k) 0 ∧
            (rleCompressAux (List.drop (rleRun b rest 1 - 1) rest)).getD (2 * k) 0 ≤ 255 := ih
      intro k hk
      match k with
      | 0 =>
          simp only [rleCompressAux, Nat.mul_zero, List.getD_cons_zero]
          exact ⟨rleRun_ge b rest 1, rleRun_le b rest 1 (by omega)⟩
      | k + 1 =>
          simp only [rleCompressAux, Nat.mul_add, Nat.mul_one] at hk ⊢
          have hx : 2 * k + 2 = (2 * k + 1) + 1 := by omega
          rw [hx, List.getD_cons_succ, List.getD_cons_succ]
          refine ih2 k ?_
          simp only [List.length_cons] at hk
          omega

set_option maxRecDepth 8000 in
theorem rleCompressAux_repl300 :
    rleCompressAux (List.replicate 300 170) = [255, 170, 45, 170] := by
  have h1 : List.replicate 300 (170 : Nat) = 170 :: List.replicate 299 170 := rfl
  have h2 : List.replicate 45 (170 : Nat) = 170 :: List.replicate 44 170 := rfl
  have e1 : rleRun 170 (List.replicate 299 170) 1 = 255 := by decide
  have e3 : rleRun 170 (List.replicate 44 170) 1 = 45 := by decide
  rw [h1]
  simp only [rleCompressAux, e1]
  norm_num
  rw [h2]
  simp only [rleCompressAux, e3]
  norm_num
  simp [rleCompressAux]

/-- Claim C6: RLE compression is deterministic, splits a 300-byte run of
    0xAA into exactly `[255, 0xAA, 45, 0xAA]`, and every emitted pair has a
    count between 1 and 255. -/
theorem rle_compress_run_split :
    rleCompress (List.replicate 300 170) = .ok [255, 170, 45, 170] ∧
    ∀ input out, rleCompress input = .ok out →
      ∀ k, 2 * k < out.length →
        1 ≤ out.getD (2 * k) 0 ∧ out.getD (2 * k) 0 ≤ 255 := by
  constructor
  · rw [rleCompress, if_neg (by decide), rleCompressAux_repl300]
  · intro input out hout k hk
    unfold rleCompress at hout
    split at hout
    · cases hout
      simp at hk
    · cases hout
      exact rleCompressAux_counts input k hk

/-- Witness for `rle_compress_run_split`: the pair bounds instantiated on the
    concrete 300-byte run, whose compressed form is computed above. -/
theorem rle_compress_run_split_witness :
    1 ≤ ([255, 170, 45, 170] : List Nat).getD 0 0 ∧
      ([255, 170, 45, 170] : List Nat).getD 0 0 ≤ 255 :=
  rle_compress_run_split.2 (List.replicate 300 170) [255, 170, 45, 170]
    rle_compress_run_split.1 0 (by decide)

/-! ## LZ77 codec (`src/lz77.rs`) -/

/-- Mirror of the `Lz77` struct: immutable window / lookahead configuration. -/
structure Lz77 where
  window_size : Nat
  lookahead_size : Nat
deriving DecidableEq

/-- Mirror of `Lz77::new` with `DEFAULT_WINDOW_SIZE = 4096` and
    `DEFAULT_LOOKAHEAD_SIZE = 18`. -/
def Lz77.new : Lz77 := ⟨4096, 18⟩

/-- Mirror of the fixed 4-byte `Token` record `(offset: u16, length: u8,
    next: u8)`; fields are modelled as `Nat`, kept in range by the clamps
    applied at construction, exactly as in the source. -/
structure Token where
  offset : Nat
  length : Nat
  next : Nat
deriving DecidableEq

/-- Mirror of `Token::new_literal`. -/
def Token.new_literal (byte : Nat) : Token := ⟨0, 0, byte⟩

/-- Mirror of `Token::new_match`. -/
def Token.new_match (offset length next : Nat) : Token := ⟨offset, length, next⟩

/-- Mirror of `u16::try_from(n).unwrap_or(u16::MAX)`. -/
def clampU16 (n : Nat) : Nat := min n 65535

/-- Mirror of `u8::try_from(n).unwrap_or(u8::MAX)`. -/
def clampU8 (n : Nat) : Nat := min n 255

/-- Mirror of `Token::to_bytes`: little-endian offset, then length, then the
    trailing literal. -/
def Token.to_bytes (t : Token) : List Nat :=
  [t.offset % 256, t.offset / 256, t.length, t.next]

/-- Mirror of `Token::from_bytes` on one full 4-byte chunk. -/
def Token.from_bytes4 (a b c d : Nat) : Token := ⟨a + 256 * b, c, d⟩

/-- Inner `while` loop of `Lz77::find_longest_match`: extend a candidate
    match at `start` against the lookahead at `pos` while bytes agree, the
    lookahead window is not exhausted and the length is below the lookahead
    size. -/
def matchLenGo (data : List Nat) (start pos lookEnd la : Nat) (length : Nat) : Nat :=
  if pos + length < lookEnd ∧ data.getD (start + length) 0 = data.getD (pos + length) 0 ∧
      length < la
  then matchLenGo data start pos lookEnd la (length + 1)
  else length
termination_by la - length
decreasing_by
  rename_i h
  omega

/-- Outer `for start in search_start..position` loop of
    `Lz77::find_longest_match`, carrying the current best `(offset, length)`
    pair and replacing it only on strictly greater length of at least 3. -/
def findLongestGo (data : List Nat) (pos lookEnd la : Nat) (start : Nat)
    (best : Nat × Nat) : Nat × Nat :=
  if start < pos then
    findLongestGo data pos lookEnd la (start + 1)
      (if 3 ≤ matchLenGo data start pos lookEnd la 0 ∧
          best.2 < matchLenGo data start pos lookEnd la 0
        then (pos - start, matchLenGo data start pos lookEnd la 0) else best)
  else best
termination_by pos - start
decreasing_by
  rename_i h
  omega

/-- Mirror of `Lz77::find_longest_match`. -/
def Lz77.find_longest_match (lz : Lz77) (data : List Nat) (position : Nat) :
    Nat × Nat :=
  findLongestGo data position (min (position + lz.lookahead_size) data.length)
    lz.lookahead_size (position - lz.window_size) (0, 0)

/-- Main `while position < input.len()` loop of `Lz77::compress`, emitting
    the token list. -/
def lz77CompressGo (lz : Lz77) (input : List Nat) (position : Nat) : List Token :=
  if hp : position < input.length then
    if hm : 3 ≤ (lz.find_longest_match input position).2 then
      Token.new_match (clampU16 (lz.find_longest_match input position).1)
          (clampU8 (lz.find_longest_match input position).2)
          (if position + (lz.find_longest_match input position).2 < input.length
            then input.getD (position + (lz.find_longest_match input position).2) 0 else 0) ::
        lz77CompressGo lz input
          (if position + (lz.find_longest_match input position).2 < input.length
            then position + (lz.find_longest_match input position).2 + 1
            else position + (lz.find_longest_match input position).2)
    else
      Token.new_literal (input.getD position 0) :: lz77CompressGo lz input (position + 1)
  else []
termination_by input.length - position
decreasing_by
  · split <;> omega
  · omega

/-- Mirror of `Lz77::compress` (`impl Compressor for Lz77`): 4-byte
    little-endian clamped original length, then the flat token stream. -/
def Lz77.compress (lz : Lz77) (input : List Nat) :
    Except CompressionError (List Nat) :=
  if input = [] then .ok []
  else .ok (u32le (clampU32 input.length) ++
    (lz77CompressGo lz input 0).flatMap Token.to_bytes)

/-- Token parsing of `Lz77::decompress`: `chunks_exact(4)` combined with
    `Token::from_bytes` (which never fails on a full chunk). -/
def parseTokens (data : List Nat) : List Token :=
  match data with
  | a :: b :: c :: d :: rest => Token.from_bytes4 a b c d :: parseTokens rest
  | _ => []

/-- Copy loop of a match token in `Lz77::decompress`: copy up to `length`
    bytes from `start` in the already-produced output, stopping early once
    the declared original length is reached. -/
def lzCopy (origLen start : Nat) (out : List Nat) (i length : Nat) : List Nat :=
  if i < length then
    if origLen ≤ out.length then out
    else lzCopy origLen start (out ++ [out.getD (start + i) 0]) (i + 1) length
  else out
termination_by length - i
decreasing_by
  rename_i h _
  omega

/-- Trailing-literal step of `Lz77::decompress`, applied after every token:
    append the token's literal unless the output already has the declared
    length. -/
def lzPushNext (origLen : Nat) (out : List Nat) (next : Nat) : List Nat :=
  if out.length < origLen then out ++ [next] else out

/-- One iteration of the token replay loop in `Lz77::decompress`. -/
def lzReplayToken (origLen : Nat) (out : List Nat) (t : Token) :
    Except CompressionError (List Nat) :=
  if t.length ≠ 0 then
    if t.offset = 0 ∨ out.length < t.offset then .error .CorruptedData
    else .ok (lzPushNext origLen
      (lzCopy origLen (out.length - t.offset) out 0 t.length) t.next)
  else .ok (lzPushNext origLen out t.next)

/-- Full token replay loop of `Lz77::decompress`. -/
def lzReplayAll (origLen : Nat) (tokens : List Token) (out : List Nat) :
    Except CompressionError (List Nat) :=
  match tokens with
  | [] => .ok out
  | t :: ts =>
      match lzReplayToken origLen out t with
      | .error e => .error e
      | .ok out2 => lzReplayAll origLen ts out2

/-- Mirror of `Lz77::decompress` (`impl Decompressor for Lz77`). -/
def Lz77.decompress (_lz : Lz77) (input : List Nat) :
    Except CompressionError (List Nat) :=
  if input = [] then .ok []
  else if input.length < 4 then .error .CorruptedData
  else if ¬ (input.drop 4).length % 4 = 0 then .error .CorruptedData
  else
    match lzReplayAll
        (readU32le (input.getD 0 0) (input.getD 1 0) (input.getD 2 0) (input.getD 3 0))
        (parseTokens (input.drop 4)) [] with
    | .error e => .error e
    | .ok out =>
        if ¬ out.length =
            readU32le (input.getD 0 0) (input.getD 1 0) (input.getD 2 0) (input.getD 3 0)
        then .error .CorruptedData else .ok out

theorem matchLenGo_ge (data : List Nat) (start pos lookEnd la length : Nat) :
    length ≤ matchLenGo data start pos lookEnd la length := by
  induction length using matchLenGo.induct data start pos lookEnd la with
  | case1 length hc ih =>
      rw [matchLenGo, if_pos hc]
      omega
  | case2 length hc =>
      rw [matchLenGo, if_neg hc]

theorem matchLenGo_le (data : List Nat) (start pos lookEnd la length : Nat)
    (h : length ≤ la) : matchLenGo data start pos lookEnd la length ≤ la := by
  induction length using matchLenGo.induct data start pos lookEnd la with
  | case1 length hc ih =>
      rw [matchLenGo, if_pos hc]
      exact ih (by omega)
  | case2 length hc =>
      rw [matchLenGo, if_neg hc]
      exact h

theorem matchLenGo_lookEnd (data : List Nat) (start pos lookEnd la length : Nat)
    (h : pos + length ≤ lookEnd) :
    pos + matchLenGo data start pos lookEnd la length ≤ lookEnd := by
  induction length using matchLenGo.induct data start pos lookEnd la with
  | case1 length hc ih =>
      rw [matchLenGo, if_pos hc]
      exact ih (by omega)
  | case2 length hc =>
      rw [matchLenGo, if_neg hc]
      exact h

theorem matchLenGo_agree (data : List Nat) (start pos lookEnd la length : Nat) :
    ∀ i, length ≤ i → i < matchLenGo data start pos lookEnd la length →
      data.getD (start + i) 0 = data.getD (pos + i) 0 := by
  induction length using matchLenGo.induct data start pos lookEnd la with
  | case1 length hc ih =>
      intro i hi1 hi2
      rw [matchLenGo, if_pos hc] at hi2
      rcases Nat.eq_or_lt_of_le hi1 with h | h
      · exact h ▸ hc.2.1
      · exact ih i h hi2
  | case2 length hc =>
      intro i hi1 hi2
      rw [matchLenGo, if_neg hc] at hi2
      omega

/-- Loop invariant of `find_longest_match`: after scanning candidate starts
    in `[ss, s0)`, either nothing of length ≥ 3 was found and the best pair
    is still `(0, 0)`, or the best pair records the first (smallest-start,
    hence farthest) candidate achieving the maximal match length. -/
def FlmInv (data : List Nat) (pos lookEnd la ss s0 : Nat) (best : Nat × Nat) : Prop :=
  (best = (0, 0) ∧ ∀ s, ss ≤ s → s < s0 → matchLenGo data s pos lookEnd la 0 < 3) ∨
  (∃ sw, ss ≤ sw ∧ sw < s0 ∧
    best = (pos - sw, matchLenGo data sw pos lookEnd la 0) ∧
    3 ≤ matchLenGo data sw pos lookEnd la 0 ∧
    (∀ s, ss ≤ s → s < s0 →
      matchLenGo data s pos lookEnd la 0 ≤ matchLenGo data sw pos lookEnd la 0) ∧
    (∀ s, ss ≤ s → s < s0 →
      matchLenGo data s pos lookEnd la 0 = matchLenGo data sw pos lookEnd la 0 →
        sw ≤ s))

theorem findLongestGo_spec (data : List Nat) (pos lookEnd la ss s0 : Nat)
    (best : Nat × Nat) (hss : ss ≤ s0) (hsp : s0 ≤ pos)
    (hinv : FlmInv data pos lookEnd la ss s0 best) :
    FlmInv data pos lookEnd la ss pos (findLongestGo data pos lookEnd la s0 best) := by
  by_cases hlt : s0 < pos
  · rw [findLongestGo, if_pos hlt]
    refine findLongestGo_spec data pos lookEnd la ss (s0 + 1) _ (by omega) (by omega) ?_
    by_cases hc : 3 ≤ matchLenGo data s0 pos lookEnd la 0 ∧
        best.2 < matchLenGo data s0 pos lookEnd la 0
    · rw [if_pos hc]
      refine Or.inr ⟨s0, hss, by omega, rfl, hc.1, ?_, ?_⟩
      · intro s hs1 hs2
        rcases Nat.lt_or_ge s s0 with h | h
        · rcases hinv with ⟨hb, hall⟩ | ⟨sw, _, _, hb, h3, hmax, _⟩
          · have := hall s hs1 h
            omega
          · have := hmax s hs1 h
            rw [hb] at hc
            omega
        · have : s = s0 := by omega
          rw [this]
      · intro s hs1 hs2 heq
        by_contra hlt2
        have hss0 : s < s0 := by omega
        rcases hinv with ⟨hb, hall⟩ | ⟨sw, _, _, hb, h3, hmax, _⟩
        · have := hall s hs1 hss0
          omega
        · have := hmax s hs1 hss0
          rw [hb] at hc
          omega
    · rw [if_neg hc]
      rcases hinv with ⟨hb, hall⟩ | ⟨sw, hsw1, hsw2, hb, h3, hmax, htie⟩
      · refine Or.inl ⟨hb, ?_⟩
        intro s hs1 hs2
        rcases Nat.lt_or_ge s s0 with h | h
        · exact hall s hs1 h
        · have hseq : s = s0 := by omega
          subst hseq
          rw [hb] at hc
          simp only [not_and, not_lt] at hc
          by_contra hge
          have h3m : 3 ≤ matchLenGo data s pos lookEnd la 0 := by omega
          have := hc h3m
          omega
      · refine Or.inr ⟨sw, hsw1, by omega, hb, h3, ?_, ?_⟩
        · intro s hs1 hs2
          rcases Nat.lt_or_ge s s0 with h | h
          · exact hmax s hs1 h
          · have hseq : s = s0 := by omega
            subst hseq
            rw [hb] at hc
            simp only [not_and, not_lt] at hc
            by_contra hgt
            have h3m : 3 ≤ matchLenGo data s pos lookEnd la 0 := by omega
            have := hc h3m
            omega
        · intro s hs1 hs2 heq
          rcases Nat.lt_or_ge s s0 with h | h
          · exact htie s hs1 h heq
          · omega
  · have hse : s0 = pos := by omega
    rw [findLongestGo, if_neg hlt]
    subst hse
    exact hinv
termination_by pos - s0
decreasing_by
  omega

/-- Complete behavioural specification of `Lz77::find_longest_match`. -/
theorem find_longest_match_spec (lz : Lz77) (data : List Nat) (pos : Nat) :
    FlmInv data pos (min (pos + lz.lookahead_size) data.length) lz.lookahead_size
      (pos - lz.window_size) pos (lz.find_longest_match data pos) := by
  refine findLongestGo_spec data pos _ _ _ (pos - lz.window_size) (0, 0)
    (le_refl _) (by omega) ?_
  exact Or.inl ⟨rfl, by omega⟩

/-- Claim C2 counterexample: in `[1,2,3,1,2,3,1,2,3]` at cursor 6, both
    offset 6 (start 0) and offset 3 (start 3) give a maximal-length match of
    3 bytes, yet `find_longest_match` returns offset 6 — the farthest, not
    the smallest, offset. -/
theorem lz77_tie_break_counterexample :
    Lz77.new.find_longest_match [1, 2, 3, 1, 2, 3, 1, 2, 3] 6 = (6, 3) ∧
    matchLenGo [1, 2, 3, 1, 2, 3, 1, 2, 3] 3 6
      (min (6 + Lz77.new.lookahead_size) 9) Lz77.new.lookahead_size 0 = 3 ∧
    ¬ (Lz77.new.find_longest_match [1, 2, 3, 1, 2, 3, 1, 2, 3] 6).1 ≤ 3 := by
  refine ⟨?_, ?_, ?_⟩ <;>
    simp [Lz77.find_longest_match, Lz77.new, findLongestGo, matchLenGo, List.getD]

/-- Claim C2 (amended): when the longest-match search finds a match of
    length at least 3, the returned pair records the maximal match length
    over all window-eligible starts, and among starts achieving that length
    the returned offset is the LARGEST (the farthest candidate wins the
    tie, because the scan runs farthest-to-nearest and replaces the best
    only on strictly greater length). -/
theorem lz77_tie_break_largest (lz : Lz77) (data : List Nat) (pos : Nat)
    (hl : 3 ≤ (lz.find_longest_match data pos).2) :
    ∃ sw, pos - lz.window_size ≤ sw ∧ sw < pos ∧
      lz.find_longest_match data pos =
        (pos - sw, matchLenGo data sw pos (min (pos + lz.lookahead_size) data.length)
          lz.lookahead_size 0) ∧
      (∀ s, pos - lz.window_size ≤ s → s < pos →
        matchLenGo data s pos (min (pos + lz.lookahead_size) data.length)
            lz.lookahead_size 0 ≤ (lz.find_longest_match data pos).2) ∧
      (∀ s, pos - lz.window_size ≤ s → s < pos →
        matchLenGo data s pos (min (pos + lz.lookahead_size) data.length)
            lz.lookahead_size 0 = (lz.find_longest_match data pos).2 →
          pos - s ≤ (lz.find_longest_match data pos).1) := by
  rcases find_longest_match_spec lz data pos with ⟨hb, _⟩ | ⟨sw, h1, h2, hb, h3, hmax, htie⟩
  · rw [hb] at hl
    exact absurd hl (by norm_num)
  · refine ⟨sw, h1, h2, hb, ?_, ?_⟩
    · intro s hs1 hs2
      rw [hb]
      exact hmax s hs1 hs2
    · intro s hs1 hs2 heq
      rw [hb] at heq ⊢
      have := htie s hs1 hs2 heq
      omega

/-- Witness for `lz77_tie_break_largest` on the concrete tie input: the
    returned offset 6 dominates the offsets of all equal-length matches. -/
theorem lz77_tie_break_largest_witness :
    ∃ sw, 6 - Lz77.new.window_size ≤ sw ∧ sw < 6 ∧
      Lz77.new.find_longest_match [1, 2, 3, 1, 2, 3, 1, 2, 3] 6 =
        (6 - sw, matchLenGo [1, 2, 3, 1, 2, 3, 1, 2, 3] sw 6
          (min (6 + Lz77.new.lookahead_size) ([1, 2, 3, 1, 2, 3, 1, 2, 3] : List Nat).length)
          Lz77.new.lookahead_size 0) ∧
      (∀ s, 6 - Lz77.new.window_size ≤ s → s < 6 →
        matchLenGo [1, 2, 3, 1, 2, 3, 1, 2, 3] s 6
            (min (6 + Lz77.new.lookahead_size) ([1, 2, 3, 1, 2, 3, 1, 2, 3] : List Nat).length)
            Lz77.new.lookahead_size 0 ≤
          (Lz77.new.find_longest_match [1, 2, 3, 1, 2, 3, 1, 2, 3] 6).2) ∧
      (∀ s, 6 - Lz77.new.window_size ≤ s → s < 6 →
        matchLenGo [1, 2, 3, 1, 2, 3, 1, 2, 3] s 6
            (min (6 + Lz77.new.lookahead_size) ([1, 2, 3, 1, 2, 3, 1, 2, 3] : List Nat).length)
            Lz77.new.lookahead_size 0 =
          (Lz77.new.find_longest_match [1, 2, 3, 1, 2, 3, 1, 2, 3] 6).2 →
          6 - s ≤ (Lz77.new.find_longest_match [1, 2, 3, 1, 2, 3, 1, 2, 3] 6).1) :=
  lz77_tie_break_largest Lz77.new [1, 2, 3, 1, 2, 3, 1, 2, 3] 6
    (by simp [Lz77.find_longest_match, Lz77.new, findLongestGo, matchLenGo, List.getD])

theorem token_to_bytes_length (t : Token) : t.to_bytes.length = 4 := by
  simp [Token.to_bytes]

theorem flatMap_to_bytes_length (ts : List Token) :
    (ts.flatMap Token.to_bytes).length = 4 * ts.length := by
  induction ts with
  | nil => simp
  | cons t ts ih =>
      simp only [List.flatMap_cons, List.length_append, token_to_bytes_length, ih,
        List.length_cons]
      omega

theorem lz77CompressGo_ne_nil (lz : Lz77) (input : List Nat) (position : Nat)
    (h : position < input.length) : lz77CompressGo lz input position ≠ [] := by
  rw [lz77CompressGo, dif_pos h]
  split <;> exact List.cons_ne_nil _ _

/-- Claim C10: LZ77 compression of any non-empty input is a 4-byte header
    plus at least one 4-byte token (length `4 + 4k`, `k ≥ 1`), and a 1-byte
    input always compresses to exactly 8 bytes. -/
theorem lz77_compress_framing (lz : Lz77) :
    (∀ input : List Nat, input ≠ [] →
      ∃ out k, lz.compress input = .ok out ∧ 1 ≤ k ∧ out.length = 4 + 4 * k) ∧
    (∀ b : Nat, ∃ out, lz.compress [b] = .ok out ∧ out.length = 8) := by
  have hmain : ∀ input : List Nat, input ≠ [] →
      ∃ out k, lz.compress input = .ok out ∧ 1 ≤ k ∧ out.length = 4 + 4 * k := by
    intro input hne
    refine ⟨u32le (clampU32 input.length) ++
      (lz77CompressGo lz input 0).flatMap Token.to_bytes,
      (lz77CompressGo lz input 0).length, ?_, ?_, ?_⟩
    · rw [Lz77.compress, if_neg hne]
    · have h0 : 0 < input.length := List.length_pos.mpr hne
      have := lz77CompressGo_ne_nil lz input 0 h0
      have := List.length_pos.mpr this
      omega
    · rw [List.length_append, flatMap_to_bytes_length]
      simp [u32le]
  refine ⟨hmain, ?_⟩
  intro b
  have hgo : lz77CompressGo lz [b] 0 = [Token.new_literal b] := by
    rw [lz77CompressGo]
    rw [dif_pos (by simp)]
    rw [dif_neg ?hneg]
    case hneg =>
      have : lz.find_longest_match [b] 0 = (0, 0) := by
        rw [Lz77.find_longest_match, findLongestGo, if_neg (by omega)]
      rw [this]
      norm_num
    have h1 : lz77CompressGo lz [b] 1 = [] := by
      rw [lz77CompressGo, dif_neg (by simp)]
    rw [h1]
    simp [List.getD]
  refine ⟨u32le (clampU32 1) ++ [Token.new_literal b].flatMap Token.to_bytes, ?_, ?_⟩
  · rw [Lz77.compress, if_neg (by simp)]
    simp only [List.length_cons, List.length_nil, hgo]
  · simp [u32le, Token.to_bytes]

/-- Witness for `lz77_compress_framing` at the default configuration on a
    concrete 1-byte buffer. -/
theorem lz77_compress_framing_witness :
    ∃ out, Lz77.new.compress [42] = .ok out ∧ out.length = 8 :=
  (lz77_compress_framing Lz77.new).2 42

theorem parseTokens_cons (t : Token) (rest : List Nat) :
    parseTokens (t.to_bytes ++ rest) = t :: parseTokens rest := by
  show parseTokens (t.offset % 256 :: t.offset / 256 :: t.length :: t.next :: rest) = _
  rw [parseTokens]
  simp only [Token.from_bytes4, Nat.mod_add_div]

theorem parseTokens_flatMap (ts : List Token) :
    parseTokens (ts.flatMap Token.to_bytes) = ts := by
  induction ts with
  | nil => rfl
  | cons t ts ih =>
      rw [List.flatMap_cons, parseTokens_cons, ih]

theorem getD_take_lt (l : List Nat) (n j : Nat) (h : j < n) :
    (l.take n).getD j 0 = l.getD j 0 := by
  simp [List.getD, List.getElem?_take, h]

theorem take_push (l : List Nat) (j : Nat) (h : j < l.length) :
    l.take j ++ [l.getD j 0] = l.take (j + 1) := by
  rw [List.take_succ]
  congr 1
  simp [List.getD, List.getElem?_eq_getElem h]

theorem lzCopy_spec (input : List Nat) (sw pos l : Nat)
    (hsw : sw < pos) (hl : pos + l ≤ input.length)
    (hagree : ∀ j, j < l → input.getD (sw + j) 0 = input.getD (pos + j) 0)
    (i : Nat) (hi : i ≤ l) :
    lzCopy input.length sw (input.take (pos + i)) i l = input.take (pos + l) := by
  by_cases hil : i < l
  · have hlen : (input.take (pos + i)).length = pos + i := by
      simp
      omega
    rw [lzCopy, if_pos hil, if_neg (by omega)]
    have hgd : (input.take (pos + i)).getD (sw + i) 0 = input.getD (pos + i) 0 := by
      rw [getD_take_lt input (pos + i) (sw + i) (by omega)]
      exact hagree i hil
    rw [hgd, take_push input (pos + i) (by omega)]
    have := lzCopy_spec input sw pos l hsw hl hagree (i + 1) (by omega)
    simpa [Nat.add_assoc] using this
  · have hieq : i = l := by omega
    rw [lzCopy, if_neg (by omega), hieq]
termination_by l - i
decreasing_by
  omega

theorem lzReplayAll_cons_ok (origLen : Nat) (out : List Nat) (t : Token)
    (ts : List Token) (out2 : List Nat)
    (h : lzReplayToken origLen out t = .ok out2) :
    lzReplayAll origLen (t :: ts) out = lzReplayAll origLen ts out2 := by
  rw [lzReplayAll, h]

theorem lzReplayAll_cons_err (origLen : Nat) (out : List Nat) (t : Token)
    (ts : List Token) (e : CompressionError)
    (h : lzReplayToken origLen out t = .error e) :
    lzReplayAll origLen (t :: ts) out = .error e := by
  rw [lzReplayAll, h]

theorem lzReplay_compressGo (lz : Lz77) (input : List Nat)
    (hw : lz.window_size ≤ 65535) (hla : lz.lookahead_size ≤ 255)
    (pos : Nat) (hpos : pos ≤ input.length) :
    lzReplayAll input.length (lz77CompressGo lz input pos) (input.take pos) =
      .ok input := by
  have htakelen : (input.take pos).length = pos := by simp; omega
  by_cases hp : pos < input.length
  · rw [lz77CompressGo, dif_pos hp]
    by_cases hm : 3 ≤ (lz.find_longest_match input pos).2
    · rw [dif_pos hm]
      rcases find_longest_match_spec lz input pos with ⟨hb, _⟩ | ⟨sw, h1, h2, hb, h3, _, _⟩
      · rw [hb] at hm
        norm_num at hm
      · have hofs : (lz.find_longest_match input pos).1 = pos - sw := by rw [hb]
        have hlen2 : (lz.find_longest_match input pos).2 =
            matchLenGo input sw pos (min (pos + lz.lookahead_size) input.length)
              lz.lookahead_size 0 := by rw [hb]
        set m := matchLenGo input sw pos (min (pos + lz.lookahead_size) input.length)
          lz.lookahead_size 0 with hmdef
        have hmla : m ≤ lz.lookahead_size :=
          matchLenGo_le input sw pos _ lz.lookahead_size 0 (Nat.zero_le _)
        have hple : pos ≤ min (pos + lz.lookahead_size) input.length :=
          le_min (Nat.le_add_right _ _) (le_of_lt hp)
        have hpm : pos + m ≤ input.length := by
          have hx := matchLenGo_lookEnd input sw pos
            (min (pos + lz.lookahead_size) input.length) lz.lookahead_size 0
            (by omega)
          have hy : min (pos + lz.lookahead_size) input.length ≤ input.length :=
            min_le_right _ _
          omega
        have hagree : ∀ j, j < m → input.getD (sw + j) 0 = input.getD (pos + j) 0 :=
          fun j hj => matchLenGo_agree input sw pos _ lz.lookahead_size 0 j
            (Nat.zero_le j) hj
        have hc16 : clampU16 (pos - sw) = pos - sw := by
          unfold clampU16
          omega
        have hc8 : clampU8 m = m := by
          unfold clampU8
          omega
        rw [hofs, hlen2, hc16, hc8]
        have hcopy : lzCopy input.length sw (input.take pos) 0 m =
            input.take (pos + m) := by
          have := lzCopy_spec input sw pos m h2 hpm hagree 0 (Nat.zero_le m)
          simpa using this
        have htok : lzReplayToken input.length (input.take pos)
            (Token.new_match (pos - sw) m
              (if pos + m < input.length then input.getD (pos + m) 0 else 0)) =
            .ok (lzPushNext input.length (input.take (pos + m))
              (if pos + m < input.length then input.getD (pos + m) 0 else 0)) := by
          rw [lzReplayToken]
          rw [if_pos (by simp [Token.new_match]; omega)]
          rw [if_neg (by simp [Token.new_match, htakelen]; omega)]
          simp only [Token.new_match, htakelen]
          have hsweq : pos - (pos - sw) = sw := by omega
          rw [hsweq, hcopy]
        rw [lzReplayAll_cons_ok _ _ _ _ _ htok]
        by_cases hnp : pos + m < input.length
        · simp only [if_pos hnp]
          have hpush : lzPushNext input.length (input.take (pos + m))
              (input.getD (pos + m) 0) = input.take (pos + m + 1) := by
            rw [lzPushNext, if_pos (by simp; omega)]
            exact take_push input (pos + m) hnp
          rw [hpush]
          exact lzReplay_compressGo lz input hw hla (pos + m + 1) (by omega)
        · simp only [if_neg hnp]
          have hpush : lzPushNext input.length (input.take (pos + m)) 0 =
              input.take (pos + m) := by
            rw [lzPushNext, if_neg (by simp; omega)]
          rw [hpush]
          exact lzReplay_compressGo lz input hw hla (pos + m) (by omega)
    · rw [dif_neg hm]
      have htok : lzReplayToken input.length (input.take pos)
          (Token.new_literal (input.getD pos 0)) =
          .ok (input.take (pos + 1)) := by
        rw [lzReplayToken]
        rw [if_neg (by simp [Token.new_literal])]
        rw [lzPushNext, if_pos (by omega)]
        simp only [Token.new_literal]
        rw [take_push input pos hp]
      rw [lzReplayAll_cons_ok _ _ _ _ _ htok]
      exact lzReplay_compressGo lz input hw hla (pos + 1) (by omega)
  · have hpe : pos = input.length := by omega
    rw [lz77CompressGo, dif_neg hp, lzReplayAll, hpe, List.take_length]
termination_by input.length - pos
decreasing_by
  all_goals omega

/-- LZ77 round trip for any configuration with in-range token fields
    (window fitting u16, lookahead fitting u8) on buffers shorter than
    `2^32`, covering the default window 4096 / lookahead 18. -/
theorem lz77_decompress_compress (lz : Lz77) (hw : lz.window_size ≤ 65535)
    (hla : lz.lookahead_size ≤ 255) (input : List Nat)
    (hlen : input.length < 2 ^ 32) :
    ∃ c, lz.compress input = .ok c ∧ lz.decompress c = .ok input := by
  by_cases hne : input = []
  · exact ⟨[], by simp [hne, Lz77.compress, Lz77.decompress]⟩
  · have hclamp : clampU32 input.length = input.length := by
      unfold clampU32
      omega
    refine ⟨u32le (clampU32 input.length) ++
      (lz77CompressGo lz input 0).flatMap Token.to_bytes, ?_, ?_⟩
    · rw [Lz77.compress, if_neg hne]
    · rw [hclamp]
      have hc : u32le input.length ++ (lz77CompressGo lz input 0).flatMap Token.to_bytes =
          input.length % 256 :: input.length / 256 % 256 :: input.length / 2 ^ 16 % 256 ::
            input.length / 2 ^ 24 % 256 ::
            (lz77CompressGo lz input 0).flatMap Token.to_bytes := by
        simp [u32le]
      rw [hc]
      rw [Lz77.decompress]
      rw [if_neg (by simp)]
      rw [if_neg (by simp)]
      rw [if_neg ?hmod]
      case hmod =>
        simp only [List.drop_succ_cons, List.drop_zero, flatMap_to_bytes_length]
        omega
      simp only [List.getD_cons_zero, List.getD_cons_succ, List.drop_succ_cons,
        List.drop_zero]
      simp only [readU32le_u32le input.length hlen, parseTokens_flatMap]
      have hrep := lzReplay_compressGo lz input hw hla 0 (Nat.zero_le _)
      simp only [List.take_zero] at hrep
      rw [hrep]
      show (if ¬ input.length = input.length then
          (.error .CorruptedData : Except CompressionError (List Nat))
        else .ok input) = .ok input
      rw [if_neg (by simp)]

theorem lzReplayToken_error_iff (origLen : Nat) (out : List Nat) (t : Token)
    (e : CompressionError) :
    lzReplayToken origLen out t = .error e ↔
      e = .CorruptedData ∧ t.length ≠ 0 ∧ (t.offset = 0 ∨ out.length < t.offset) := by
  unfold lzReplayToken
  by_cases h1 : t.length ≠ 0
  · rw [if_pos h1]
    by_cases h2 : t.offset = 0 ∨ out.length < t.offset
    · rw [if_pos h2]
      constructor
      · intro h
        cases h
        exact ⟨rfl, h1, h2⟩
      · rintro ⟨rfl, -, -⟩
        rfl
    · rw [if_neg h2]
      constructor
      · intro h
        exact absurd h (by simp)
      · rintro ⟨-, -, h⟩
        exact absurd h h2
  · rw [if_neg h1]
    constructor
    · intro h
      exact absurd h (by simp)
    · rintro ⟨-, h, -⟩
      exact absurd h h1

/-- Replay failure happens exactly when, after some prefix of tokens has
    replayed successfully, the next token is a match token whose offset is
    zero or exceeds the output accumulated so far — and the error is always
    CorruptedData. -/
theorem lzReplayAll_error_iff (origLen : Nat) (ts : List Token) (out : List Nat)
    (e : CompressionError) :
    lzReplayAll origLen ts out = .error e ↔
      e = .CorruptedData ∧ ∃ ts1 t ts2 out1, ts = ts1 ++ t :: ts2 ∧
        lzReplayAll origLen ts1 out = .ok out1 ∧ t.length ≠ 0 ∧
        (t.offset = 0 ∨ out1.length < t.offset) := by
  induction ts generalizing out with
  | nil =>
      rw [lzReplayAll]
      constructor
      · intro h
        exact absurd h (by simp)
      · rintro ⟨-, ts1, t, ts2, out1, hsplit, -⟩
        exact absurd hsplit (by simp)
  | cons t ts ih =>
      cases htok : lzReplayToken origLen out t with
      | error e2 =>
          obtain ⟨he2, hlen, hoff⟩ := (lzReplayToken_error_iff origLen out t e2).mp htok
          rw [lzReplayAll_cons_err _ _ _ _ _ htok]
          constructor
          · intro h
            cases h
            exact ⟨he2, [], t, ts, out, rfl, rfl, hlen, hoff⟩
          · rintro ⟨rfl, -⟩
            rw [he2]
      | ok out2 =>
          rw [lzReplayAll_cons_ok _ _ _ _ _ htok, ih out2]
          constructor
          · rintro ⟨he, ts1, t', ts2, out1, hsplit, hrep, hlen, hoff⟩
            refine ⟨he, t :: ts1, t', ts2, out1, by rw [hsplit, List.cons_append],
              ?_, hlen, hoff⟩
            rw [lzReplayAll_cons_ok _ _ _ _ _ htok]
            exact hrep
          · rintro ⟨he, ts1, t', ts2, out1, hsplit, hrep, hlen, hoff⟩
            cases ts1 with
            | nil =>
                simp only [List.nil_append, List.cons.injEq] at hsplit
                obtain ⟨rfl, rfl⟩ := hsplit
                have hrep2 : (Except.ok out : Except CompressionError (List Nat)) =
                    .ok out1 := hrep
                cases hrep2
                have := (lzReplayToken_error_iff origLen out t .CorruptedData).mpr
                  ⟨rfl, hlen, hoff⟩
                rw [this] at htok
                exact absurd htok (by simp)
            | cons t0 ts1tail =>
                simp only [List.cons_append, List.cons.injEq] at hsplit
                obtain ⟨rfl, hts⟩ := hsplit
                rw [lzReplayAll_cons_ok _ _ _ _ _ htok] at hrep
                exact ⟨he, ts1tail, t', ts2, out1, hts, hrep, hlen, hoff⟩

/-- Failure condition of `Lz77::decompress` as stated by the specification:
    a non-empty input shorter than 4 bytes, a token region that is not a
    multiple of 4 bytes, a reached match token with a zero or too-large
    offset, or a final length mismatch. -/
def lz77CorruptCondition (input : List Nat) : Prop :=
  input.length < 4 ∨
  ¬ (input.length - 4) % 4 = 0 ∨
  (∃ ts1 t ts2 out1,
    parseTokens (input.drop 4) = ts1 ++ t :: ts2 ∧
    lzReplayAll (readU32le (input.getD 0 0) (input.getD 1 0) (input.getD 2 0)
      (input.getD 3 0)) ts1 [] = .ok out1 ∧
    t.length ≠ 0 ∧ (t.offset = 0 ∨ out1.length < t.offset)) ∨
  (∃ out, lzReplayAll (readU32le (input.getD 0 0) (input.getD 1 0) (input.getD 2 0)
      (input.getD 3 0)) (parseTokens (input.drop 4)) [] = .ok out ∧
    ¬ out.length = readU32le (input.getD 0 0) (input.getD 1 0) (input.getD 2 0)
      (input.getD 3 0))

/-- Claim C3: for non-empty input, LZ77 decompression returns CorruptedData
    exactly when the input is shorter than 4 bytes, the token region length
    is not a multiple of 4, a reached match token has offset zero or larger
    than the output produced so far, or the replayed output length differs
    from the declared original length; otherwise it succeeds. -/
theorem lz77_decompress_error_classification (lz : Lz77) (input : List Nat)
    (hne : input ≠ []) :
    (lz.decompress input = .error .CorruptedData ↔ lz77CorruptCondition input) ∧
    (¬ lz77CorruptCondition input → ∃ out, lz.decompress input = .ok out) := by
  by_cases h4 : input.length < 4
  · rw [Lz77.decompress, if_neg hne, if_pos h4]
    exact ⟨⟨fun _ => Or.inl h4, fun _ => rfl⟩,
      fun hc => absurd (Or.inl h4) hc⟩
  · by_cases hmod : (input.length - 4) % 4 = 0
    · rw [Lz77.decompress, if_neg hne, if_neg h4,
        if_neg (by simp only [List.length_drop]; omega)]
      cases hrep : lzReplayAll
          (readU32le (input.getD 0 0) (input.getD 1 0) (input.getD 2 0)
            (input.getD 3 0)) (parseTokens (input.drop 4)) [] with
      | error e =>
          obtain ⟨he, hwit⟩ := (lzReplayAll_error_iff _ _ _ e).mp hrep
          subst he
          refine ⟨⟨fun _ => Or.inr (Or.inr (Or.inl hwit)), fun _ => rfl⟩,
            fun hc => absurd (Or.inr (Or.inr (Or.inl hwit))) hc⟩
      | ok out =>
          dsimp only
          by_cases hlen : out.length =
              readU32le (input.getD 0 0) (input.getD 1 0) (input.getD 2 0)
                (input.getD 3 0)
          · rw [if_neg (by simpa using hlen)]
            constructor
            · constructor
              · intro h
                exact absurd h (by simp)
              · intro hcond
                exfalso
                rcases hcond with h | h | h | h
                · exact h4 h
                · exact h hmod
                · have := (lzReplayAll_error_iff _ _ _ .CorruptedData).mpr ⟨rfl, h⟩
                  rw [this] at hrep
                  exact Except.noConfusion hrep
                · obtain ⟨out2, hrep2, hlen2⟩ := h
                  rw [hrep] at hrep2
                  cases hrep2
                  exact hlen2 hlen
            · intro _
              exact ⟨out, rfl⟩
          · rw [if_pos (by simpa using hlen)]
            refine ⟨⟨fun _ => Or.inr (Or.inr (Or.inr ⟨out, hrep, hlen⟩)),
              fun _ => rfl⟩, fun hc =>
                absurd (Or.inr (Or.inr (Or.inr ⟨out, hrep, hlen⟩))) hc⟩
    · rw [Lz77.decompress, if_neg hne, if_neg h4,
        if_pos (by simp only [List.length_drop]; omega)]
      exact ⟨⟨fun _ => Or.inr (Or.inl hmod), fun _ => rfl⟩,
        fun hc => absurd (Or.inr (Or.inl hmod)) hc⟩

/-- Witness for `lz77_decompress_error_classification`: the spec's concrete
    probe `[1, 2, 3]` (shorter than 4 bytes) fails with CorruptedData. -/
theorem lz77_decompress_error_classification_witness :
    Lz77.new.decompress [1, 2, 3] = .error .CorruptedData :=
  (lz77_decompress_error_classification Lz77.new [1, 2, 3] (by decide)).1.mpr
    (Or.inl (by decide))

/-! ## Huffman codec (`src/huffman.rs`) -/

/-- Mirror of `HuffmanNode` (a frequency plus the `NodeData` enum of leaf /
    internal), flattened into one inductive. -/
inductive HuffmanNode where
  | leaf (frequency : Nat) (byte : Nat)
  | internal (frequency : Nat) (left right : HuffmanNode)
deriving DecidableEq

/-- Projection of the `frequency` field. -/
def HuffmanNode.frequency : HuffmanNode → Nat
  | .leaf f _ => f
  | .internal f _ _ => f

/-- Mirror of `HuffmanNode::new_leaf`. -/
def HuffmanNode.new_leaf (byte frequency : Nat) : HuffmanNode :=
  .leaf frequency byte

/-- Mirror of `HuffmanNode::new_internal`: the frequency is the sum of the
    children's frequencies. -/
def HuffmanNode.new_internal (l r : HuffmanNode) : HuffmanNode :=
  .internal (l.frequency + r.frequency) l r

/-- Mirror of `HuffmanNode::build_codes`. The source accumulates codes in a
    `HashMap<u8, Vec<bool>>`; since every tree this codec builds has
    pairwise distinct leaf bytes, the map is modelled as the association
    list of `(byte, code)` pairs in traversal order, queried with
    `List.lookup`. -/
def build_codes : HuffmanNode → List Bool → List (Nat × List Bool)
  | .leaf _ byte, pre => if pre = [] then [(byte, [false])] else [(byte, pre)]
  | .internal _ l r, pre =>
      build_codes l (pre ++ [false]) ++ build_codes r (pre ++ [true])

/-- Mirror of `build_frequency_table`. The source's `HashMap<u8, usize>`
    (unordered, distinct keys) is modelled as the association list of the
    distinct bytes of the input with their occurrence counts; the hash
    map's iteration order is unspecified, so the model fixes one
    enumeration of the distinct bytes. -/
def build_frequency_table (data : List Nat) : List (Nat × Nat) :=
  data.dedup.map (fun b => (b, data.count b))

/-- Model of `BinaryHeap<HuffmanNode>` under the source's reversed
    `Ord` (a min-heap on frequency): a list kept sorted by ascending
    frequency, popped at the head. The pop order between equal frequencies
    is unspecified in the source (heap internals); the model fixes one. -/
def heapInsert (n : HuffmanNode) : List HuffmanNode → List HuffmanNode
  | [] => [n]
  | m :: ms =>
      if n.frequency ≤ m.frequency then n :: m :: ms else m :: heapInsert n ms

/-- Merge loop of `build_huffman_tree` (`while heap.len() > 1`): pop the two
    lowest-frequency nodes and push their parent. The fuel is the initial
    heap size; each iteration shrinks the heap by one, so fuel never runs
    out. -/
def buildTreeGo : Nat → List HuffmanNode → Option HuffmanNode
  | _, [] => none
  | _, [n] => some n
  | 0, _ :: _ :: _ => none
  | fuel + 1, a :: b :: rest =>
      buildTreeGo fuel (heapInsert (HuffmanNode.new_internal a b) rest)

/-- Mirror of `build_huffman_tree`. -/
def build_huffman_tree (freq_table : List (Nat × Nat)) : Option HuffmanNode :=
  if freq_table = [] then none
  else
    buildTreeGo
      (freq_table.foldl (fun h p => heapInsert (HuffmanNode.new_leaf p.1 p.2) h) []).length
      (freq_table.foldl (fun h p => heapInsert (HuffmanNode.new_leaf p.1 p.2) h) [])

/-- Mirror of `serialize_tree`: pre-order, `1 byte` for a leaf, `0` then the
    two subtrees for an internal node. -/
def serialize_tree : HuffmanNode → List Nat
  | .leaf _ byte => [1, byte]
  | .internal _ l r => 0 :: (serialize_tree l ++ serialize_tree r)

/-- Mirror of `deserialize_tree`; the advancing `pos` cursor is modelled by
    returning the unconsumed suffix, bundled with the bound needed for
    termination of the nested recursion. -/
def deserializeTreeAux : (data : List Nat) →
    Except CompressionError (HuffmanNode × { rest : List Nat // rest.length ≤ data.length })
  | [] => .error .CorruptedData
  | t :: rest =>
      if t = 1 then
        match rest with
        | [] => .error .CorruptedData
        | b :: rest2 => .ok (HuffmanNode.new_leaf b 0, ⟨rest2, by simp; omega⟩)
      else
        match deserializeTreeAux rest with
        | .error e => .error e
        | .ok (l, ⟨r1, hr1⟩) =>
            match deserializeTreeAux r1 with
            | .error e => .error e
            | .ok (r, ⟨r2, hr2⟩) =>
                .ok (HuffmanNode.new_internal l r, ⟨r2, by simp; omega⟩)
termination_by data => data.length
decreasing_by
  · simp
  · simp
    omega

/-- Mirror of `deserialize_tree` with the cursor exposed as the remaining
    byte list. -/
def deserialize_tree (data : List Nat) :
    Except CompressionError (HuffmanNode × List Nat) :=
  match deserializeTreeAux data with
  | .error e => .error e
  | .ok (t, rest) => .ok (t, rest.val)

/-- Mirror of the inner loop of `bits_to_bytes`: or each set bit into the
    byte, most significant bit first. -/
def packByteGo : List Bool → Nat → Nat → Nat
  | [], _, byte => byte
  | bit :: restBits, i, byte =>
      packByteGo restBits (i + 1) (if bit then byte ||| (1 <<< (7 - i)) else byte)

/-- Mirror of `bits_to_bytes`: pack the bit stream into bytes in chunks of
    8, zero-padding the final byte. -/
def bits_to_bytes (bits : List Bool) : List Nat :=
  if bits = [] then [] else packByteGo (bits.take 8) 0 0 :: bits_to_bytes (bits.drop 8)
termination_by bits.length
decreasing_by
  rename_i h
  simp only [List.length_drop]
  have := List.length_pos.mpr h
  omega

/-- The 8 bits of one byte, most significant first, as read by the inner
    loop of `bytes_to_bits` (`(byte >> (7 - i)) & 1 == 1` is
    `Nat.testBit byte (7 - i)`). -/
def unpackByte (byte : Nat) : List Bool :=
  (List.range 8).map (fun i => byte.testBit (7 - i))

/-- Mirror of `bytes_to_bits`: the loop pushes the bits of each byte in
    order and stops as soon as `num_bits` bits have been produced, which is
    exactly the `num_bits`-prefix of the concatenated bit expansion. -/
def bytes_to_bits (bytes : List Nat) (numBits : Nat) : List Bool :=
  (bytes.flatMap unpackByte).take numBits

/-- Encoding loop of `Huffman::compress`: look up each input byte's code
    (failing with CorruptedData when absent, as the source does) and
    concatenate the codes. -/
def huffmanEncodeBits (codes : List (Nat × List Bool)) :
    List Nat → Except CompressionError (List Bool)
  | [] => .ok []
  | b :: rest =>
      match codes.lookup b with
      | none => .error .CorruptedData
      | some code =>
          match huffmanEncodeBits codes rest with
          | .error e => .error e
          | .ok bits => .ok (code ++ bits)

/-- Mirror of `Huffman::compress` (`impl Compressor for Huffman`). -/
def Huffman.compress (input : List Nat) : Except CompressionError (List Nat) :=
  if input = [] then .ok []
  else
    match build_huffman_tree (build_frequency_table input) with
    | none => .error (.InvalidInput "cannot build tree")
    | some tree =>
        match huffmanEncodeBits (build_codes tree []) input with
        | .error e => .error e
        | .ok bits =>
            .ok (serialize_tree tree ++ u32le (clampU32 input.length) ++
              u32le (clampU32 bits.length) ++ bits_to_bytes bits)

/-- Main decoding loop of `Huffman::decompress`: walk the tree bit by bit,
    emitting a byte and resetting to the root at each leaf, while the
    output is short of the declared length and bits remain. -/
def huffDecodeGo (tree : HuffmanNode) (origLen : Nat) :
    HuffmanNode → List Bool → List Nat → HuffmanNode × List Nat
  | node, bits, out =>
      if out.length < origLen ∧ bits ≠ [] then
        match node with
        | .leaf _ b => huffDecodeGo tree origLen tree bits (out ++ [b])
        | .internal _ l r =>
            match bits with
            | bit :: restBits =>
                huffDecodeGo tree origLen (if bit then r else l) restBits out
            | [] => (node, out)
      else (node, out)
termination_by _node bits out => (origLen - out.length) + bits.length
decreasing_by
  all_goals simp_all
  all_goals omega

/-- Final leaf patch of `Huffman::decompress`: if the walk ended on a leaf
    with the output one byte short, emit that pending leaf byte. -/
def huffPatch (origLen : Nat) (p : HuffmanNode × List Nat) : List Nat :=
  match p.1 with
  | .leaf _ b => if p.2.length < origLen then p.2 ++ [b] else p.2
  | .internal _ _ _ => p.2

/-- Mirror of `Huffman::decompress` (`impl Decompressor for Huffman`). -/
def Huffman.decompress (input : List Nat) : Except CompressionError (List Nat) :=
  if input = [] then .ok []
  else
    match deserialize_tree input with
    | .error e => .error e
    | .ok (tree, rest) =>
        if rest.length < 8 then .error .CorruptedData
        else
          if ¬ (huffPatch
              (readU32le (rest.getD 0 0) (rest.getD 1 0) (rest.getD 2 0) (rest.getD 3 0))
              (huffDecodeGo tree
                (readU32le (rest.getD 0 0) (rest.getD 1 0) (rest.getD 2 0) (rest.getD 3 0))
                tree
                (bytes_to_bits (rest.drop 8)
                  (readU32le (rest.getD 4 0) (rest.getD 5 0) (rest.getD 6 0) (rest.getD 7 0)))
                [])).length =
              readU32le (rest.getD 0 0) (rest.getD 1 0) (rest.getD 2 0) (rest.getD 3 0)
          then .error .CorruptedData
          else .ok (huffPatch
              (readU32le (rest.getD 0 0) (rest.getD 1 0) (rest.getD 2 0) (rest.getD 3 0))
              (huffDecodeGo tree
                (readU32le (rest.getD 0 0) (rest.getD 1 0) (rest.getD 2 0) (rest.getD 3 0))
                tree
                (bytes_to_bits (rest.drop 8)
                  (readU32le (rest.getD 4 0) (rest.getD 5 0) (rest.getD 6 0) (rest.getD 7 0)))
                []))

/-- Claim C4: all three codecs short-circuit the empty buffer in both
    directions, emitting and requiring no header. -/
theorem empty_input_shortcut (lz : Lz77) :
    rleCompress [] = .ok [] ∧ rleDecompress [] = .ok [] ∧
    lz.compress [] = .ok [] ∧ lz.decompress [] = .ok [] ∧
    Huffman.compress [] = .ok [] ∧ Huffman.decompress [] = .ok [] := by
  refine ⟨rfl, rfl, ?_, ?_, rfl, rfl⟩
  · rw [Lz77.compress, if_pos rfl]
  · rw [Lz77.decompress, if_pos rfl]

/-- Witness for `empty_input_shortcut` at the default LZ77 configuration. -/
theorem empty_input_shortcut_witness :
    Lz77.new.compress [] = .ok [] ∧ Lz77.new.decompress [] = .ok [] :=
  ⟨(empty_input_shortcut Lz77.new).2.2.1, (empty_input_shortcut Lz77.new).2.2.2.1⟩

/-- Structure-and-leaf-values view of a Huffman tree: frequencies zeroed
    out, everything else untouched. Two trees have the same `eraseFreq`
    image exactly when they agree in shape and leaf bytes. -/
def eraseFreq : HuffmanNode → HuffmanNode
  | .leaf _ b => .leaf 0 b
  | .internal _ l r => .internal 0 (eraseFreq l) (eraseFreq r)

theorem eraseFreq_frequency (t : HuffmanNode) : (eraseFreq t).frequency = 0 := by
  cases t <;> rfl

theorem deserializeTreeAux_serialize (t : HuffmanNode) (data rest : List Nat)
    (hdata : data = serialize_tree t ++ rest) :
    ∃ h, deserializeTreeAux data = .ok (eraseFreq t, ⟨rest, h⟩) := by
  induction t generalizing data rest with
  | leaf f b =>
      subst hdata
      show ∃ h, deserializeTreeAux (1 :: b :: rest) = .ok (eraseFreq (.leaf f b), ⟨rest, h⟩)
      rw [deserializeTreeAux.eq_def]
      dsimp only
      rw [if_pos rfl]
      exact ⟨by simp; omega, by simp [HuffmanNode.new_leaf, eraseFreq]⟩
  | internal f l r ihl ihr =>
      subst hdata
      show ∃ h, deserializeTreeAux (0 :: ((serialize_tree l ++ serialize_tree r) ++ rest)) =
        .ok (eraseFreq (.internal f l r), ⟨rest, h⟩)
      rw [deserializeTreeAux.eq_def]
      dsimp only
      rw [if_neg (by norm_num)]
      obtain ⟨h1, hok1⟩ := ihl ((serialize_tree l ++ serialize_tree r) ++ rest)
        (serialize_tree r ++ rest) (List.append_assoc _ _ _)
      rw [hok1]
      dsimp only
      obtain ⟨h2, hok2⟩ := ihr (serialize_tree r ++ rest) rest rfl
      rw [hok2]
      dsimp only
      refine ⟨by simp; omega, ?_⟩
      simp [HuffmanNode.new_internal, eraseFreq, eraseFreq_frequency]

/-- Claim C8: serializing a Huffman tree and deserializing the result
    succeeds, consumes exactly the serialized bytes, and returns a tree
    with identical structure and leaf byte values (frequencies, which the
    wire format does not carry, read back as zero). -/
theorem huffman_tree_serialization_roundtrip (t : HuffmanNode) (rest : List Nat) :
    deserialize_tree (serialize_tree t ++ rest) = .ok (eraseFreq t, rest) := by
  obtain ⟨h, hok⟩ := deserializeTreeAux_serialize t (serialize_tree t ++ rest) rest rfl
  rw [deserialize_tree, hok]

/-- Witness for `huffman_tree_serialization_roundtrip` on a concrete
    two-leaf tree. -/
theorem huffman_tree_serialization_roundtrip_witness :
    deserialize_tree
        (serialize_tree (.internal 5 (.leaf 2 97) (.leaf 3 98)) ++ [9]) =
      .ok (eraseFreq (.internal 5 (.leaf 2 97) (.leaf 3 98)), [9]) :=
  huffman_tree_serialization_roundtrip (.internal 5 (.leaf 2 97) (.leaf 3 98)) [9]

/-- Leaf bytes of a tree in left-to-right order. -/
def leafBytes : HuffmanNode → List Nat
  | .leaf _ b => [b]
  | .internal _ l r => leafBytes l ++ leafBytes r

/-- Leaf bytes of a whole heap. -/
def heapLeaves (hs : List HuffmanNode) : List Nat :=
  hs.flatMap leafBytes

theorem heapInsert_length (n : HuffmanNode) (hs : List HuffmanNode) :
    (heapInsert n hs).length = hs.length + 1 := by
  induction hs with
  | nil => rfl
  | cons m ms ih =>
      rw [heapInsert]
      split
      · simp
      · simp only [List.length_cons, ih]

theorem heapLeaves_insert (n : HuffmanNode) (hs : List HuffmanNode) :
    List.Perm (heapLeaves (heapInsert n hs)) (leafBytes n ++ heapLeaves hs) := by
  induction hs with
  | nil => simp [heapInsert, heapLeaves]
  | cons m ms ih =>
      rw [heapInsert]
      split
      · simp [heapLeaves]
      · simp only [heapLeaves, List.flatMap_cons] at ih ⊢
        refine List.Perm.trans (List.Perm.append_left _ ih) ?_
        rw [← List.append_assoc, ← List.append_assoc]
        exact List.Perm.append_right _ List.perm_append_comm

theorem buildTreeGo_perm (fuel : Nat) (hs : List HuffmanNode) (t : HuffmanNode)
    (h : buildTreeGo fuel hs = some t) :
    List.Perm (leafBytes t) (heapLeaves hs) := by
  induction fuel generalizing hs t with
  | zero =>
      match hs, h with
      | [n], h =>
          cases h
          simp [heapLeaves]
  | succ fuel ih =>
      match hs, h with
      | [n], h =>
          cases h
          simp [heapLeaves]
      | a :: b :: rest, h =>
          rw [buildTreeGo] at h
          refine List.Perm.trans (ih _ t h) ?_
          refine List.Perm.trans (heapLeaves_insert _ _) ?_
          simp [HuffmanNode.new_internal, leafBytes, heapLeaves]

theorem buildTreeGo_some (fuel : Nat) (hs : List HuffmanNode)
    (hne : hs ≠ []) (hfuel : hs.length ≤ fuel + 1) :
    ∃ t, buildTreeGo fuel hs = some t := by
  induction fuel generalizing hs with
  | zero =>
      match hs, hne with
      | [n], _ => exact ⟨n, rfl⟩
  | succ fuel ih =>
      match hs, hne with
      | [n], _ => exact ⟨n, rfl⟩
      | a :: b :: rest, _ =>
          refine ih (heapInsert (HuffmanNode.new_internal a b) rest) ?_ ?_
          · intro hx
            have := heapInsert_length (HuffmanNode.new_internal a b) rest
            rw [hx] at this
            simp at this
          · rw [heapInsert_length]
            simp only [List.length_cons] at hfuel
            omega

theorem buildTreeGo_internal (fuel : Nat) (hs : List HuffmanNode) (t : HuffmanNode)
    (hlen2 : 2 ≤ hs.length) (h : buildTreeGo fuel hs = some t) :
    ∃ f l r, t = .internal f l r := by
  induction fuel generalizing hs t with
  | zero =>
      match hs, hlen2, h with
      | a :: b :: rest, _, h => exact absurd h (by rw [buildTreeGo]; simp)
  | succ fuel ih =>
      match hs, hlen2, h with
      | a :: b :: rest, _, h =>
          rw [buildTreeGo] at h
          by_cases hr : rest = []
          · subst hr
            have hx : heapInsert (HuffmanNode.new_internal a b) [] =
                [HuffmanNode.new_internal a b] := rfl
            rw [hx] at h
            have hy : buildTreeGo fuel [HuffmanNode.new_internal a b] =
                some (HuffmanNode.new_internal a b) := by
              cases fuel <;> rfl
            rw [hy] at h
            cases h
            exact ⟨_, _, _, rfl⟩
          · refine ih (heapInsert (HuffmanNode.new_internal a b) rest) t ?_ h
            rw [heapInsert_length]
            have : 1 ≤ rest.length := by
              cases rest with
              | nil => exact absurd rfl hr
              | cons x xs => simp
            omega

theorem foldl_heapInsert_leaves (ft : List (Nat × Nat)) (acc : List HuffmanNode) :
    List.Perm
      (heapLeaves (ft.foldl (fun h p => heapInsert (HuffmanNode.new_leaf p.1 p.2) h) acc))
      (heapLeaves acc ++ ft.map Prod.fst) := by
  induction ft generalizing acc with
  | nil => simp
  | cons p ps ih =>
      rw [List.foldl_cons]
      refine List.Perm.trans (ih (heapInsert (HuffmanNode.new_leaf p.1 p.2) acc)) ?_
      refine List.Perm.trans (List.Perm.append_right _ (heapLeaves_insert _ _)) ?_
      have h1 : (leafBytes (HuffmanNode.new_leaf p.1 p.2) ++ heapLeaves acc) ++
          ps.map Prod.fst = p.1 :: (heapLeaves acc ++ ps.map Prod.fst) := by
        simp [HuffmanNode.new_leaf, leafBytes]
      rw [h1]
      simp only [List.map_cons]
      exact (List.perm_middle).symm

theorem build_huffman_tree_leaves (ft : List (Nat × Nat)) (t : HuffmanNode)
    (h : build_huffman_tree ft = some t) :
    List.Perm (leafBytes t) (ft.map Prod.fst) := by
  rw [build_huffman_tree] at h
  split at h
  · exact absurd h (by simp)
  · refine List.Perm.trans (buildTreeGo_perm _ _ t h) ?_
    have := foldl_heapInsert_leaves ft []
    simpa [heapLeaves] using this

theorem build_frequency_table_keys (input : List Nat) :
    (build_frequency_table input).map Prod.fst = input.dedup := by
  simp only [build_frequency_table, List.map_map]
  exact List.map_id _

/-- A root-to-leaf path in a Huffman tree: following the bits (`false` =
    left, `true` = right) from the given node reaches a leaf holding the
    given byte. -/
inductive PathTo : HuffmanNode → List Bool → Nat → Prop where
  | leafEnd (f b : Nat) : PathTo (.leaf f b) [] b
  | goLeft (f : Nat) (l r : HuffmanNode) (c : List Bool) (b : Nat) :
      PathTo l c b → PathTo (.internal f l r) (false :: c) b
  | goRight (f : Nat) (l r : HuffmanNode) (c : List Bool) (b : Nat) :
      PathTo r c b → PathTo (.internal f l r) (true :: c) b

theorem build_codes_keys (t : HuffmanNode) (pre : List Bool) :
    (build_codes t pre).map Prod.fst = leafBytes t := by
  induction t generalizing pre with
  | leaf f b =>
      rw [build_codes]
      split <;> simp [leafBytes]
  | internal f l r ihl ihr =>
      rw [build_codes]
      simp [ihl, ihr, leafBytes]

theorem build_codes_path (t : HuffmanNode) (pre : List Bool) (b : Nat)
    (c : List Bool) (h : (b, c) ∈ build_codes t pre) :
    (∃ suffix, c = pre ++ suffix ∧ PathTo t suffix b) ∨
      ((∃ f, t = .leaf f b) ∧ pre = [] ∧ c = [false]) := by
  induction t generalizing pre with
  | leaf f b0 =>
      rw [build_codes] at h
      split at h
      · rename_i hpre
        simp only [List.mem_singleton, Prod.mk.injEq] at h
        exact Or.inr ⟨⟨f, by rw [h.1]⟩, hpre, h.2⟩
      · simp only [List.mem_singleton, Prod.mk.injEq] at h
        refine Or.inl ⟨[], by simp [h.2], ?_⟩
        rw [h.1]
        exact PathTo.leafEnd f b0
  | internal f l r ihl ihr =>
      rw [build_codes] at h
      rcases List.mem_append.mp h with hm | hm
      · rcases ihl (pre ++ [false]) hm with ⟨suffix, hc, hp⟩ | ⟨_, hpre, _⟩
        · refine Or.inl ⟨false :: suffix, ?_, PathTo.goLeft f l r suffix b hp⟩
          rw [hc, List.append_assoc]
          rfl
        · exact absurd hpre (by simp)
      · rcases ihr (pre ++ [true]) hm with ⟨suffix, hc, hp⟩ | ⟨_, hpre, _⟩
        · refine Or.inl ⟨true :: suffix, ?_, PathTo.goRight f l r suffix b hp⟩
          rw [hc, List.append_assoc]
          rfl
        · exact absurd hpre (by simp)

theorem pathTo_eraseFreq (t : HuffmanNode) (c : List Bool) (b : Nat)
    (h : PathTo t c b) : PathTo (eraseFreq t) c b := by
  induction h with
  | leafEnd f b => exact PathTo.leafEnd 0 b
  | goLeft f l r c b _ ih => exact PathTo.goLeft 0 _ _ c b ih
  | goRight f l r c b _ ih => exact PathTo.goRight 0 _ _ c b ih

theorem lookup_isSome_of_mem_keys {β : Type} (l : List (Nat × β)) (b : Nat)
    (h : b ∈ l.map Prod.fst) : ∃ c, l.lookup b = some c := by
  induction l with
  | nil => simp at h
  | cons p rest ih =>
      rw [List.lookup]
      by_cases hb : b = p.1
      · exact ⟨p.2, by simp [hb]⟩
      · have hb2 : (b == p.1) = false := by simp [hb]
        rw [hb2]
        simp only [List.map_cons, List.mem_cons] at h
        rcases h with h | h
        · exact absurd h hb
        · exact ih h

theorem mem_of_lookup_eq_some {β : Type} (l : List (Nat × β)) (b : Nat) (c : β)
    (h : l.lookup b = some c) : (b, c) ∈ l := by
  induction l with
  | nil => simp [List.lookup] at h
  | cons p rest ih =>
      rw [List.lookup] at h
      by_cases hb : b = p.1
      · rw [show (b == p.1) = true by simp [hb]] at h
        cases h
        simp only [List.mem_cons]
        left
        rw [hb]
      · rw [show (b == p.1) = false by simp [hb]] at h
        exact List.mem_cons_of_mem _ (ih h)

theorem huffmanEncodeBits_ok (codes : List (Nat × List Bool)) (input : List Nat)
    (h : ∀ b ∈ input, ∃ c, codes.lookup b = some c) :
    huffmanEncodeBits codes input =
      .ok (input.flatMap (fun b => (codes.lookup b).getD [])) := by
  induction input with
  | nil => rfl
  | cons b rest ih =>
      obtain ⟨c, hc⟩ := h b (by simp)
      rw [huffmanEncodeBits, hc, ih (fun x hx => h x (by simp [hx]))]
      simp [hc]

/-- Claim C9: Huffman compression never fails: the empty input returns the
    empty buffer and every non-empty input reaches the success path (the
    tree always builds and every input byte has a code). -/
theorem huffman_compress_total (input : List Nat) :
    ∃ out, Huffman.compress input = .ok out := by
  by_cases hne : input = []
  · exact ⟨[], by rw [hne]; rfl⟩
  · have hded : input.dedup ≠ [] := by
      intro hx
      exact hne ((List.dedup_eq_nil _).mp hx)
    have hft : build_frequency_table input ≠ [] := by
      rw [build_frequency_table]
      simpa using hded
    have hkeys : (build_frequency_table input).map Prod.fst = input.dedup :=
      build_frequency_table_keys input
    have hheap : (build_frequency_table input).foldl
        (fun h p => heapInsert (HuffmanNode.new_leaf p.1 p.2) h) [] ≠ [] := by
      intro hx
      have hperm := foldl_heapInsert_leaves (build_frequency_table input) []
      rw [hx] at hperm
      simp only [heapLeaves, List.flatMap_nil, List.nil_append] at hperm
      have h0 : (build_frequency_table input).map Prod.fst = [] :=
        hperm.symm.eq_nil
      rw [hkeys] at h0
      exact hded h0
    obtain ⟨t, ht⟩ := buildTreeGo_some
      ((build_frequency_table input).foldl
        (fun h p => heapInsert (HuffmanNode.new_leaf p.1 p.2) h) []).length
      ((build_frequency_table input).foldl
        (fun h p => heapInsert (HuffmanNode.new_leaf p.1 p.2) h) [])
      hheap (by omega)
    have htree : build_huffman_tree (build_frequency_table input) = some t := by
      rw [build_huffman_tree, if_neg hft]
      exact ht
    have hcov : ∀ b ∈ input, ∃ c, (build_codes t []).lookup b = some c := by
      intro b hb
      refine lookup_isSome_of_mem_keys _ b ?_
      rw [build_codes_keys]
      have hperm := build_huffman_tree_leaves _ t htree
      rw [hkeys] at hperm
      exact hperm.mem_iff.mpr (List.mem_dedup.mpr hb)
    have henc := huffmanEncodeBits_ok (build_codes t []) input hcov
    exact ⟨_, by
      rw [Huffman.compress, if_neg hne, htree]
      dsimp only
      rw [henc]⟩

theorem huffDecodeGo_walk (tree : HuffmanNode) (origLen : Nat) (n : HuffmanNode)
    (c : List Bool) (b : Nat) (hpath : PathTo n c b) (rest : List Bool)
    (out : List Nat) (hout : out.length < origLen) :
    (rest ≠ [] → huffDecodeGo tree origLen n (c ++ rest) out =
      huffDecodeGo tree origLen tree rest (out ++ [b])) ∧
    (rest = [] → ∃ f, huffDecodeGo tree origLen n (c ++ rest) out =
      (HuffmanNode.leaf f b, out)) := by
  induction hpath with
  | leafEnd f b =>
      constructor
      · intro hrest
        rw [List.nil_append, huffDecodeGo, if_pos ⟨hout, hrest⟩]
      · intro hrest
        subst hrest
        refine ⟨f, ?_⟩
        rw [huffDecodeGo, if_neg (by simp)]
  | goLeft f l r c b hp ih =>
      constructor
      · intro hrest
        rw [List.cons_append, huffDecodeGo, if_pos ⟨hout, by simp⟩]
        exact (ih).1 hrest
      · intro hrest
        rw [List.cons_append, huffDecodeGo, if_pos ⟨hout, by simp⟩]
        exact (ih).2 hrest
  | goRight f l r c b hp ih =>
      constructor
      · intro hrest
        rw [List.cons_append, huffDecodeGo, if_pos ⟨hout, by simp⟩]
        exact (ih).1 hrest
      · intro hrest
        rw [List.cons_append, huffDecodeGo, if_pos ⟨hout, by simp⟩]
        exact (ih).2 hrest

theorem huffDecodeGo_decodes (tree : HuffmanNode) (origLen : Nat)
    (cf : Nat → List Bool) (xs : List Nat) (out : List Nat)
    (hpaths : ∀ x ∈ xs, PathTo tree (cf x) x)
    (hne : xs ≠ [])
    (hcne : ∀ x ∈ xs, cf x ≠ [])
    (hlen : out.length + xs.length = origLen) :
    huffPatch origLen (huffDecodeGo tree origLen tree (xs.flatMap cf) out) =
      out ++ xs := by
  induction xs generalizing out with
  | nil => exact absurd rfl hne
  | cons x xs2 ih =>
      have hout : out.length < origLen := by
        simp only [List.length_cons] at hlen
        omega
      have hpx : PathTo tree (cf x) x := hpaths x (by simp)
      by_cases hxs2 : xs2 = []
      · subst hxs2
        rw [List.flatMap_cons, List.flatMap_nil]
        obtain ⟨f, heq⟩ := (huffDecodeGo_walk tree origLen tree (cf x) x hpx []
          out hout).2 rfl
        rw [heq, huffPatch]
        simp only
        rw [if_pos hout]
      · rw [List.flatMap_cons]
        have hrest : xs2.flatMap cf ≠ [] := by
          match xs2, hxs2 with
          | y :: ys, _ =>
              rw [List.flatMap_cons]
              have := hcne y (by simp)
              intro hx
              rw [List.append_eq_nil] at hx
              exact this hx.1
        rw [(huffDecodeGo_walk tree origLen tree (cf x) x hpx (xs2.flatMap cf)
          out hout).1 hrest]
        have := ih (out ++ [x]) (fun y hy => hpaths y (by simp [hy]))
          hxs2 (fun y hy => hcne y (by simp [hy])) (by simp at hlen ⊢; omega)
        rw [this, List.append_assoc]
        rfl

theorem huffDecodeGo_leafRoot (f b origLen : Nat) (bits : List Bool)
    (out : List Nat) (hbits : bits ≠ []) :
    huffDecodeGo (.leaf f b) origLen (.leaf f b) bits out =
      (.leaf f b, out ++ List.replicate (origLen - out.length) b) := by
  by_cases hout : out.length < origLen
  · rw [huffDecodeGo, if_pos ⟨hout, hbits⟩]
    rw [huffDecodeGo_leafRoot f b origLen bits (out ++ [b]) hbits]
    have h1 : origLen - out.length = (origLen - (out ++ [b]).length) + 1 := by
      simp
      omega
    rw [h1, List.replicate_succ]
    simp
  · rw [huffDecodeGo, if_neg (by simp [hout])]
    have h1 : origLen - out.length = 0 := by omega
    rw [h1]
    simp
termination_by origLen - out.length
decreasing_by
  simp only [List.length_append, List.length_cons, List.length_nil]
  omega

theorem unpack_pack (chunk : List Bool) (h : chunk.length ≤ 8) :
    unpackByte (packByteGo chunk 0 0) =
      chunk ++ List.replicate (8 - chunk.length) false := by
  match chunk with
  | [] => decide
  | [a] => cases a <;> decide
  | [a, b] => cases a <;> cases b <;> decide
  | [a, b, c] => cases a <;> cases b <;> cases c <;> decide
  | [a, b, c, d] => cases a <;> cases b <;> cases c <;> cases d <;> decide
  | [a, b, c, d, e] =>
      cases a <;> cases b <;> cases c <;> cases d <;> cases e <;> decide
  | [a, b, c, d, e, f] =>
      cases a <;> cases b <;> cases c <;> cases d <;> cases e <;> cases f <;> decide
  | [a, b, c, d, e, f, g] =>
      cases a <;> cases b <;> cases c <;> cases d <;> cases e <;> cases f <;>
        cases g <;> decide
  | [a, b, c, d, e, f, g, h2] =>
      cases a <;> cases b <;> cases c <;> cases d <;> cases e <;> cases f <;>
        cases g <;> cases h2 <;> decide
  | a :: b :: c :: d :: e :: f :: g :: h2 :: i :: rest => simp at h

/-- Unpacking the packed bytes and truncating to the original bit count
    recovers the bit stream exactly (the zero padding of the last byte is
    cut off by the `num_bits` prefix). -/
theorem bytes_to_bits_bits_to_bytes (bits : List Bool) :
    bytes_to_bits (bits_to_bytes bits) bits.length = bits := by
  rw [bytes_to_bits]
  by_cases hne : bits = []
  · subst hne
    rw [bits_to_bytes]
    simp
  · rw [bits_to_bytes, if_neg hne, List.flatMap_cons]
    rw [unpack_pack (bits.take 8) (by simp)]
    by_cases h8 : 8 ≤ bits.length
    · have hlen8 : (bits.take 8).length = 8 := by simp; omega
      rw [hlen8]
      simp only [Nat.sub_self, List.replicate_zero, List.append_nil]
      rw [List.take_append_eq_append_take, hlen8, List.take_take,
        min_eq_right h8]
      rw [show bits.length - 8 = (bits.drop 8).length by simp]
      have ih := bytes_to_bits_bits_to_bytes (bits.drop 8)
      rw [bytes_to_bits] at ih
      rw [ih]
      exact List.take_append_drop 8 bits
    · have htake : bits.take 8 = bits := List.take_of_length_le (by omega)
      have hdrop : bits.drop 8 = [] := List.drop_eq_nil_of_le (by omega)
      have hb2 : bits_to_bytes ([] : List Bool) = [] := by
        rw [bits_to_bytes]
        simp
      rw [htake, hdrop, hb2, List.flatMap_nil, List.append_nil]
      rw [List.take_append_eq_append_take, List.take_length, Nat.sub_self,
        List.take_zero, List.append_nil]
termination_by bits.length
decreasing_by
  simp only [List.length_drop]
  have := List.length_pos.mpr hne
  omega

theorem build_codes_entry_ne_nil (t : HuffmanNode) (pre : List Bool) (b : Nat)
    (c : List Bool) (h : (b, c) ∈ build_codes t pre) : c ≠ [] := by
  induction t generalizing pre with
  | leaf f b0 =>
      rw [build_codes] at h
      split at h <;> simp only [List.mem_singleton, Prod.mk.injEq] at h
      · rw [h.2]
        simp
      · rename_i hpre
        rw [h.2]
        exact hpre
  | internal f l r ihl ihr =>
      rw [build_codes] at h
      rcases List.mem_append.mp h with hm | hm
      · exact ihl (pre ++ [false]) hm
      · exact ihr (pre ++ [true]) hm

theorem flatMap_length_ge (f : Nat → List Bool) (xs : List Nat)
    (h : ∀ x ∈ xs, f x ≠ []) : xs.length ≤ (xs.flatMap f).length := by
  induction xs with
  | nil => simp
  | cons x rest ih =>
      rw [List.flatMap_cons, List.length_append, List.length_cons]
      have h1 : 1 ≤ (f x).length := by
        have := h x (by simp)
        have := List.length_pos.mpr this
        omega
      have h2 := ih (fun y hy => h y (by simp [hy]))
      omega

theorem serialize_tree_ne_nil (t : HuffmanNode) : serialize_tree t ≠ [] := by
  cases t <;> simp [serialize_tree]

/-- Everything `Huffman::compress` produces on a non-empty input: the tree,
    the code coverage, the encoded bit stream and the exact output layout. -/
theorem huffman_compress_spec (input : List Nat) (hne : input ≠ []) :
    ∃ tree, build_huffman_tree (build_frequency_table input) = some tree ∧
      List.Perm (leafBytes tree) input.dedup ∧
      (∀ b ∈ input, ∃ c, (build_codes tree []).lookup b = some c) ∧
      Huffman.compress input = .ok (serialize_tree tree ++
        u32le (clampU32 input.length) ++
        u32le (clampU32
          ((input.flatMap (fun b => ((build_codes tree []).lookup b).getD [])).length)) ++
        bits_to_bytes
          (input.flatMap (fun b => ((build_codes tree []).lookup b).getD []))) := by
  have hded : input.dedup ≠ [] := by
    intro hx
    exact hne ((List.dedup_eq_nil _).mp hx)
  have hft : build_frequency_table input ≠ [] := by
    rw [build_frequency_table]
    simpa using hded
  have hkeys : (build_frequency_table input).map Prod.fst = input.dedup :=
    build_frequency_table_keys input
  have hheap : (build_frequency_table input).foldl
      (fun h p => heapInsert (HuffmanNode.new_leaf p.1 p.2) h) [] ≠ [] := by
    intro hx
    have hperm := foldl_heapInsert_leaves (build_frequency_table input) []
    rw [hx] at hperm
    simp only [heapLeaves, List.flatMap_nil, List.nil_append] at hperm
    have h0 : (build_frequency_table input).map Prod.fst = [] :=
      hperm.symm.eq_nil
    rw [hkeys] at h0
    exact hded h0
  obtain ⟨t, ht⟩ := buildTreeGo_some
    ((build_frequency_table input).foldl
      (fun h p => heapInsert (HuffmanNode.new_leaf p.1 p.2) h) []).length
    ((build_frequency_table input).foldl
      (fun h p => heapInsert (HuffmanNode.new_leaf p.1 p.2) h) [])
    hheap (by omega)
  have htree : build_huffman_tree (build_frequency_table input) = some t := by
    rw [build_huffman_tree, if_neg hft]
    exact ht
  have hperm : List.Perm (leafBytes t) input.dedup := by
    have := build_huffman_tree_leaves _ t htree
    rwa [hkeys] at this
  have hcov : ∀ b ∈ input, ∃ c, (build_codes t []).lookup b = some c := by
    intro b hb
    refine lookup_isSome_of_mem_keys _ b ?_
    rw [build_codes_keys]
    exact hperm.mem_iff.mpr (List.mem_dedup.mpr hb)
  refine ⟨t, htree, hperm, hcov, ?_⟩
  rw [Huffman.compress, if_neg hne, htree]
  dsimp only
  rw [huffmanEncodeBits_ok (build_codes t []) input hcov]

/-- Total number of bits in the encoded Huffman stream for an input, as
    produced inside `Huffman::compress` (0 in the unreachable failure
    branches). -/
def huffmanEncodedBitLength (input : List Nat) : Nat :=
  match build_huffman_tree (build_frequency_table input) with
  | none => 0
  | some tree =>
      match huffmanEncodeBits (build_codes tree []) input with
      | .error _ => 0
      | .ok bits => bits.length

theorem flatMap_replicate_single (n : Nat) (b : Nat) (f : Nat → List Bool)
    (hf : f b = [false]) :
    (List.replicate n b).flatMap f = List.replicate n false := by
  induction n with
  | zero => rfl
  | succ n ih =>
      rw [List.replicate_succ, List.flatMap_cons, hf, ih]
      rfl

/-- Huffman round trip on every buffer whose encoded bit stream fits the
    u32 bit-count header. -/
theorem huffman_decompress_compress (input : List Nat)
    (hbits : huffmanEncodedBitLength input < 2 ^ 32) :
    ∃ c, Huffman.compress input = .ok c ∧ Huffman.decompress c = .ok input := by
  by_cases hne : input = []
  · subst hne
    exact ⟨[], rfl, rfl⟩
  · obtain ⟨tree, htree, hperm, hcov, hcomp⟩ := huffman_compress_spec input hne
    have henc : huffmanEncodeBits (build_codes tree []) input =
        .ok (input.flatMap (fun b => ((build_codes tree []).lookup b).getD [])) :=
      huffmanEncodeBits_ok (build_codes tree []) input hcov
    have hcne : ∀ x ∈ input,
        ((build_codes tree []).lookup x).getD [] ≠ [] := by
      intro x hx
      obtain ⟨c, hc⟩ := hcov x hx
      rw [hc]
      exact build_codes_entry_ne_nil tree [] x c (mem_of_lookup_eq_some _ x c hc)
    have hblen : huffmanEncodedBitLength input =
        (input.flatMap (fun b => ((build_codes tree []).lookup b).getD [])).length := by
      rw [huffmanEncodedBitLength, htree]
      dsimp only
      rw [henc]
    rw [hblen] at hbits
    have hlen32 : input.length < 2 ^ 32 := by
      have := flatMap_length_ge (fun b => ((build_codes tree []).lookup b).getD [])
        input hcne
      omega
    have hcl : clampU32 input.length = input.length := by
      rw [clampU32]
      omega
    have hcb : clampU32
        (input.flatMap (fun b => ((build_codes tree []).lookup b).getD [])).length =
        (input.flatMap (fun b => ((build_codes tree []).lookup b).getD [])).length := by
      rw [clampU32]
      omega
    rw [hcl, hcb] at hcomp
    refine ⟨_, hcomp, ?_⟩
    obtain ⟨hb, hok⟩ := deserializeTreeAux_serialize tree
      (serialize_tree tree ++ u32le input.length ++
        u32le (input.flatMap (fun b => ((build_codes tree []).lookup b).getD [])).length ++
        bits_to_bytes (input.flatMap (fun b => ((build_codes tree []).lookup b).getD [])))
      (u32le input.length ++
        (u32le (input.flatMap (fun b => ((build_codes tree []).lookup b).getD [])).length ++
          bits_to_bytes (input.flatMap (fun b => ((build_codes tree []).lookup b).getD []))))
      (by simp [List.append_assoc])
    rw [Huffman.decompress, if_neg ?hcne2]
    case hcne2 =>
      intro hx
      rcases List.append_eq_nil.mp (List.append_eq_nil.mp (List.append_eq_nil.mp hx).1).1
        with ⟨h1, -⟩
      exact serialize_tree_ne_nil tree h1
    rw [deserialize_tree, hok]
    dsimp only
    rw [if_neg (by simp [u32le])]
    have hrest : u32le input.length ++
        (u32le (input.flatMap (fun b => ((build_codes tree []).lookup b).getD [])).length ++
          bits_to_bytes (input.flatMap (fun b => ((build_codes tree []).lookup b).getD []))) =
        input.length % 256 :: input.length / 256 % 256 :: input.length / 2 ^ 16 % 256 ::
          input.length / 2 ^ 24 % 256 ::
          (input.flatMap (fun b => ((build_codes tree []).lookup b).getD [])).length % 256 ::
          (input.flatMap (fun b => ((build_codes tree []).lookup b).getD [])).length / 256 % 256 ::
          (input.flatMap (fun b => ((build_codes tree []).lookup b).getD [])).length / 2 ^ 16 % 256 ::
          (input.flatMap (fun b => ((build_codes tree []).lookup b).getD [])).length / 2 ^ 24 % 256 ::
          bits_to_bytes (input.flatMap (fun b => ((build_codes tree []).lookup b).getD [])) := by
      simp [u32le]
    rw [hrest]
    simp only [List.getD_cons_zero, List.getD_cons_succ, List.drop_succ_cons,
      List.drop_zero]
    rw [readU32le_u32le input.length hlen32,
      readU32le_u32le _ hbits,
      bytes_to_bits_bits_to_bytes]
    have hdec : huffPatch input.length
        (huffDecodeGo (eraseFreq tree) input.length (eraseFreq tree)
          (input.flatMap (fun b => ((build_codes tree []).lookup b).getD [])) []) =
        input := by
      cases tree with
      | leaf f b =>
          have hsing : input.dedup = [b] := by
            have h1 := hperm
            simp only [leafBytes] at h1
            exact List.perm_singleton.mp h1.symm
          have hall : ∀ x ∈ input, x = b := by
            intro x hx
            have := List.mem_dedup.mpr hx
            rw [hsing] at this
            simpa using this
          have hinput : input = List.replicate input.length b :=
            List.eq_replicate_iff.mpr ⟨rfl, hall⟩
          have hcodes : build_codes (HuffmanNode.leaf f b) [] = [(b, [false])] := by
            rw [build_codes, if_pos rfl]
          have hlk : ((build_codes (HuffmanNode.leaf f b) []).lookup b).getD [] =
              [false] := by
            rw [hcodes]
            simp [List.lookup]
          have hbitsval : (input.flatMap
              (fun x => ((build_codes (HuffmanNode.leaf f b) []).lookup x).getD [])) =
              List.replicate input.length false := by
            conv => lhs; rw [hinput]
            exact flatMap_replicate_single input.length b _ hlk
          rw [hbitsval]
          simp only [eraseFreq]
          have hn1 : 1 ≤ input.length := by
            have := List.length_pos.mpr hne
            omega
          have hbne : List.replicate input.length false ≠ [] := by
            intro hx
            have h9 := congrArg List.length hx
            simp only [List.length_replicate, List.length_nil] at h9
            omega
          rw [huffDecodeGo_leafRoot 0 b input.length
            (List.replicate input.length false) [] hbne]
          simp only [huffPatch, List.nil_append, List.length_nil, Nat.sub_zero,
            List.length_replicate, lt_self_iff_false, if_false]
          exact hinput.symm
      | internal f l r =>
          have hpaths : ∀ x ∈ input,
              PathTo (eraseFreq (HuffmanNode.internal f l r))
                (((build_codes (HuffmanNode.internal f l r) []).lookup x).getD []) x := by
            intro x hx
            obtain ⟨c, hc⟩ := hcov x hx
            rw [hc]
            simp only [Option.getD_some]
            have hmem := mem_of_lookup_eq_some _ x c hc
            rcases build_codes_path (HuffmanNode.internal f l r) [] x c hmem with
              ⟨suffix, hcs, hp⟩ | ⟨⟨f2, hleaf⟩, -, -⟩
            · rw [List.nil_append] at hcs
              rw [hcs]
              exact pathTo_eraseFreq _ suffix x hp
            · exact absurd hleaf (by simp)
          have hd := huffDecodeGo_decodes (eraseFreq (HuffmanNode.internal f l r))
            input.length
            (fun x => ((build_codes (HuffmanNode.internal f l r) []).lookup x).getD [])
            input [] hpaths hne hcne (by simp)
          rw [hd]
          rfl
    rw [hdec]
    rw [if_neg (by simp)]

theorem packByteGo_false (k i acc : Nat) :
    packByteGo (List.replicate k false) i acc = acc := by
  induction k generalizing i acc with
  | zero => rfl
  | succ k ih =>
      rw [List.replicate_succ, packByteGo]
      rw [if_neg (by simp)]
      exact ih (i + 1) acc

theorem bits_to_bytes_false (n : Nat) :
    bits_to_bytes (List.replicate n false) = List.replicate ((n + 7) / 8) 0 := by
  by_cases hn : n = 0
  · subst hn
    rw [bits_to_bytes]
    simp
  · rw [bits_to_bytes, if_neg (by simp [hn])]
    rw [List.take_replicate, List.drop_replicate, packByteGo_false]
    rw [bits_to_bytes_false (n - 8)]
    have h1 : (n + 7) / 8 = (n - 8 + 7) / 8 + 1 := by omega
    rw [h1, List.replicate_succ]
termination_by n
decreasing_by
  omega

theorem leafBytes_ne_nil (t : HuffmanNode) : leafBytes t ≠ [] := by
  induction t with
  | leaf f b => simp [leafBytes]
  | internal f l r ihl ihr =>
      rw [leafBytes]
      simp only [ne_eq, List.append_eq_nil]
      intro h
      exact ihl h.1

theorem leafBytes_singleton (t : HuffmanNode) (b : Nat)
    (h : leafBytes t = [b]) : ∃ f, t = .leaf f b := by
  cases t with
  | leaf f b0 =>
      rw [leafBytes] at h
      cases h
      exact ⟨f, rfl⟩
  | internal f l r =>
      exfalso
      rw [leafBytes] at h
      have h1 := congrArg List.length h
      simp only [List.length_append, List.length_cons, List.length_nil] at h1
      have h2 := List.length_pos.mpr (leafBytes_ne_nil l)
      have h3 := List.length_pos.mpr (leafBytes_ne_nil r)
      omega

/-- On an all-equal input the built tree is the single leaf holding that
    byte, and the whole compressed output has the concrete single-symbol
    layout. -/
theorem huffman_compress_replicate (n b : Nat) (hn : 1 ≤ n) :
    ∃ tree, build_huffman_tree (build_frequency_table (List.replicate n b)) = some tree ∧
      build_codes tree [] = [(b, [false])] ∧
      Huffman.compress (List.replicate n b) =
        .ok ([1, b] ++ u32le (clampU32 n) ++ u32le (clampU32 n) ++
          List.replicate ((n + 7) / 8) 0) := by
  have hne : List.replicate n b ≠ [] := by
    intro hx
    have := congrArg List.length hx
    simp at this
    omega
  obtain ⟨tree, htree, hperm, hcov, hcomp⟩ := huffman_compress_spec _ hne
  have hded : (List.replicate n b).dedup = [b] := by
    have hall : ∀ x ∈ List.replicate n b, x = b := fun x hx =>
      List.eq_of_mem_replicate hx
    have hsub : (List.replicate n b).dedup = [b] := by
      have hmem : b ∈ (List.replicate n b).dedup :=
        List.mem_dedup.mpr (by simp; omega)
      have hnd := List.nodup_dedup (List.replicate n b)
      have hsube : ∀ x ∈ (List.replicate n b).dedup, x = b := fun x hx =>
        hall x (List.mem_dedup.mp hx)
      match hd : (List.replicate n b).dedup, hmem, hnd, hsube with
      | [x], _, _, hs =>
          rw [hs x (by simp)]
      | x :: y :: rest, _, hnd2, hs =>
          exfalso
          have hx := hs x (by simp)
          have hy := hs y (by simp)
          rw [List.nodup_cons] at hnd2
          exact hnd2.1 (by rw [hx, hy]; simp)
    exact hsub
  rw [hded] at hperm
  obtain ⟨f, hleaf⟩ := leafBytes_singleton tree b (List.perm_singleton.mp hperm)
  subst hleaf
  have hcodes : build_codes (HuffmanNode.leaf f b) [] = [(b, [false])] := by
    rw [build_codes, if_pos rfl]
  refine ⟨.leaf f b, htree, hcodes, ?_⟩
  have hlk : ((build_codes (HuffmanNode.leaf f b) []).lookup b).getD [] = [false] := by
    rw [hcodes]
    simp [List.lookup]
  have hbitsval : ((List.replicate n b).flatMap
      (fun x => ((build_codes (HuffmanNode.leaf f b) []).lookup x).getD [])) =
      List.replicate n false :=
    flatMap_replicate_single n b _ hlk
  rw [hbitsval] at hcomp
  rw [hcomp]
  rw [bits_to_bytes_false]
  simp only [serialize_tree, List.length_replicate]

/-- Claim C7: an input with exactly one distinct byte gets a 1-bit code for
    its single leaf, and the concrete 100-byte single-value buffer
    compresses to strictly fewer than 100 bytes. -/
theorem huffman_single_symbol :
    (∀ (input : List Nat) (b : Nat), input ≠ [] → (∀ x ∈ input, x = b) →
      ∃ tree, build_huffman_tree (build_frequency_table input) = some tree ∧
        build_codes tree [] = [(b, [false])]) ∧
    (∃ out, Huffman.compress (List.replicate 100 7) = .ok out ∧
      out.length < 100) := by
  constructor
  · intro input b hne hall
    have hinput : input = List.replicate input.length b :=
      List.eq_replicate_iff.mpr ⟨rfl, hall⟩
    have hn : 1 ≤ input.length := by
      have := List.length_pos.mpr hne
      omega
    obtain ⟨tree, htree, hcodes, -⟩ := huffman_compress_replicate input.length b hn
    rw [← hinput] at htree
    exact ⟨tree, htree, hcodes⟩
  · obtain ⟨tree, -, -, hcomp⟩ := huffman_compress_replicate 100 7 (by omega)
    refine ⟨_, hcomp, ?_⟩
    simp [u32le, clampU32]

/-- Witness for `huffman_single_symbol`: the single-byte buffer `[5]` gets
    the 1-bit code. -/
theorem huffman_single_symbol_witness :
    ∃ tree, build_huffman_tree (build_frequency_table [5]) = some tree ∧
      build_codes tree [] = [(5, [false])] :=
  huffman_single_symbol.1 [5] 5 (by decide) (by decide)

theorem flatMap_unpack_zero (k : Nat) :
    (List.replicate k 0).flatMap unpackByte = List.replicate (8 * k) false := by
  induction k with
  | zero => rfl
  | succ k ih =>
      rw [List.replicate_succ, List.flatMap_cons, ih]
      have h0 : unpackByte 0 = List.replicate 8 false := by decide
      rw [h0, ← List.replicate_add]
      congr 1
      omega

/-- What `Huffman::decompress` does with a single-leaf frame: the walk
    emits the leaf byte `original_len` times without consuming any bits, so
    whatever lengths the (possibly truncated) header declares, the output
    is `original_len` copies of the leaf byte. -/
theorem huffman_decompress_leaf_frame (b L NB K : Nat) (hL32 : L < 2 ^ 32)
    (hNB32 : NB < 2 ^ 32) (hNB1 : 1 ≤ NB) (hNBK : NB ≤ 8 * K) :
    Huffman.decompress ([1, b] ++ u32le L ++ u32le NB ++ List.replicate K 0) =
      .ok (List.replicate L b) := by
  obtain ⟨hb, hok⟩ := deserializeTreeAux_serialize (HuffmanNode.leaf 0 b)
    ([1, b] ++ u32le L ++ u32le NB ++ List.replicate K 0)
    (u32le L ++ (u32le NB ++ List.replicate K 0))
    (by simp [serialize_tree, List.append_assoc])
  rw [Huffman.decompress, if_neg (by simp), deserialize_tree, hok]
  dsimp only
  rw [if_neg (by simp [u32le])]
  have hrest : u32le L ++ (u32le NB ++ List.replicate K 0) =
      L % 256 :: L / 256 % 256 :: L / 2 ^ 16 % 256 :: L / 2 ^ 24 % 256 ::
        NB % 256 :: NB / 256 % 256 :: NB / 2 ^ 16 % 256 :: NB / 2 ^ 24 % 256 ::
        List.replicate K 0 := by
    simp [u32le]
  rw [hrest]
  simp only [List.getD_cons_zero, List.getD_cons_succ, List.drop_succ_cons,
    List.drop_zero]
  rw [readU32le_u32le L hL32, readU32le_u32le NB hNB32]
  rw [bytes_to_bits, flatMap_unpack_zero, List.take_replicate,
    min_eq_left hNBK]
  simp only [eraseFreq]
  have hbne : List.replicate NB false ≠ [] := by
    intro hx
    have h9 := congrArg List.length hx
    simp only [List.length_replicate, List.length_nil] at h9
    omega
  rw [huffDecodeGo_leafRoot 0 b L (List.replicate NB false) [] hbne]
  simp only [huffPatch, List.nil_append, List.length_nil, Nat.sub_zero,
    List.length_replicate, lt_self_iff_false, if_false]
  rw [if_neg (by simp)]

/-- Claim C1 counterexample: on the 2^32-byte buffer of zeros, Huffman
    compression silently truncates the length headers
    (`u32::try_from(..).unwrap_or(u32::MAX)`), so decompression succeeds
    but returns a buffer one byte SHORT of the original — the round trip
    does not return B. -/
theorem huffman_roundtrip_u32_counterexample :
    ∃ c, Huffman.compress (List.replicate (2 ^ 32) 0) = .ok c ∧
      Huffman.decompress c = .ok (List.replicate (2 ^ 32 - 1) 0) ∧
      ¬ Huffman.decompress c = .ok (List.replicate (2 ^ 32) 0) := by
  obtain ⟨tree, -, -, hcomp⟩ := huffman_compress_replicate (2 ^ 32) 0 (by norm_num)
  have hcl : clampU32 (2 ^ 32) = 2 ^ 32 - 1 := by decide
  rw [hcl] at hcomp
  have hdec := huffman_decompress_leaf_frame 0 (2 ^ 32 - 1) (2 ^ 32 - 1)
    ((2 ^ 32 + 7) / 8) (by decide) (by decide) (by decide) (by decide)
  refine ⟨_, hcomp, hdec, ?_⟩
  intro h
  rw [hdec] at h
  have h2 : List.replicate (2 ^ 32 - 1) (0 : Nat) = List.replicate (2 ^ 32) 0 := by
    injection h
  have h3 := congrArg List.length h2
  simp only [List.length_replicate] at h3
  exact absurd h3 (by decide)

/-- Claim C1 (amended): `decompress (compress B) = B` holds for RLE on
    every buffer, for LZ77 with the default window 4096 and lookahead 18 on
    every buffer shorter than 2^32 bytes, and for Huffman on every buffer
    whose encoded bit stream is shorter than 2^32 bits (which bounds the
    buffer itself below 2^32 bytes, every code being at least one bit). -/
theorem roundtrip_amended :
    (∀ B : List Nat, ∃ c, rleCompress B = .ok c ∧ rleDecompress c = .ok B) ∧
    (∀ B : List Nat, B.length < 2 ^ 32 →
      ∃ c, Lz77.new.compress B = .ok c ∧ Lz77.new.decompress c = .ok B) ∧
    (∀ B : List Nat, huffmanEncodedBitLength B < 2 ^ 32 →
      ∃ c, Huffman.compress B = .ok c ∧ Huffman.decompress c = .ok B) :=
  ⟨rleDecompress_compress,
    fun B h => lz77_decompress_compress Lz77.new (by norm_num [Lz77.new])
      (by norm_num [Lz77.new]) B h,
    huffman_decompress_compress⟩

/-- Witness for `roundtrip_amended` on the concrete buffer `[1, 2, 3]` for
    all three codecs. -/
theorem roundtrip_amended_witness :
    (∃ c, rleCompress [1, 2, 3] = .ok c ∧ rleDecompress c = .ok [1, 2, 3]) ∧
    (∃ c, Lz77.new.compress [1, 2, 3] = .ok c ∧
      Lz77.new.decompress c = .ok [1, 2, 3]) ∧
    (∃ c, Huffman.compress [1, 2, 3] = .ok c ∧
      Huffman.decompress c = .ok [1, 2, 3]) :=
  ⟨roundtrip_amended.1 [1, 2, 3],
    roundtrip_amended.2.1 [1, 2, 3] (by decide),
    roundtrip_amended.2.2 [1, 2, 3] (by decide)⟩
